import Mathlib

/-!
Verification of the egg-file-format trust-and-packaging pipeline.

This development shallowly embeds the Python modules `egg/hashing.py`,
`egg/composer.py`, `egg/manifest.py`, `egg/precompute.py` and
`egg/runtime_fetcher.py`.

Modelling conventions:
* Python byte strings and text strings are both `List Nat` (byte values /
  Unicode code points); `bytes.decode` is the identity on this model.
* SHA-256 and Ed25519 are abstract function parameters (`sha`, `sign`,
  `vsig`); theorems assume only the algebraic laws the real primitives
  satisfy (determinism is built in, signature correctness and digest
  distinctness are explicit hypotheses where needed).
* A ZIP archive is its list of (entry name, entry bytes) pairs in central
  directory order; `zipfile.ZipFile.open` resolves a name to the *last*
  entry bearing it (`NameToInfo` is overwritten in order), `namelist`
  returns all names in order.  Fixed entry metadata (timestamp
  1980-01-01, DEFLATE) is constant and therefore omitted from the model.
* YAML values are modelled by a flat universe `YVal` (scalars, lists of
  scalars, maps of scalars) together with an executable codec
  `yenc`/`ydec` standing in for `yaml.safe_dump`/`yaml.safe_load`; the
  only law the proofs use is that decoding a dump of a string-to-string
  mapping returns that mapping, which PyYAML guarantees.
* Paths are POSIX and symlink-free; `Path.resolve` is modelled as pure
  component normalization.
-/

namespace Egg

/-- Code points of a string literal; used to write `List Nat` constants. -/
def strN (s : String) : List Nat := s.data.map Char.toNat

/-- The `/` code point. -/
def slashC : Nat := 47

/-- The components of a POSIX path string: split on `/`. -/
def splitSlash (s : List Nat) : List (List Nat) :=
  s.foldr
    (fun c acc =>
      if c = slashC then [] :: acc
      else
        match acc with
        | [] => [[c]]
        | h :: t => (c :: h) :: t)
    [[]]

/-- `PurePosixPath(s).parts` minus the root: empty components and `.`
components are dropped, `..` is kept. -/
def posixParts (s : List Nat) : List (List Nat) :=
  (splitSlash s).filter (fun c => c ≠ [] ∧ c ≠ strN ".")

/-- `PurePosixPath(s).is_absolute()`: the string starts with `/`. -/
def posixIsAbs (s : List Nat) : Bool :=
  match s with
  | [] => false
  | c :: _ => c = slashC

/-- `Path(s).name` for ordinary file paths: the last nonempty component. -/
def pathName (s : List Nat) : List Nat :=
  ((splitSlash s).filter (fun c => c ≠ [])).getLastD []

/-- Python `str.isspace` on the ASCII whitespace the model cares about. -/
def isSpaceC (c : Nat) : Bool :=
  c = 32 ∨ c = 9 ∨ c = 10 ∨ c = 11 ∨ c = 12 ∨ c = 13

/-- Python `str.strip()`. -/
def strip (s : List Nat) : List Nat :=
  ((s.dropWhile isSpaceC).reverse.dropWhile isSpaceC).reverse

/-- Value of one hexadecimal digit character, if it is one. -/
def hexDigVal (c : Nat) : Option Nat :=
  if 48 ≤ c ∧ c ≤ 57 then some (c - 48)
  else if 97 ≤ c ∧ c ≤ 102 then some (c - 87)
  else if 65 ≤ c ∧ c ≤ 70 then some (c - 55)
  else none

/-- Lowercase hex digit character for a value below 16. -/
def hexDig (d : Nat) : Nat :=
  if d < 10 then d + 48 else d + 87

/-- Lowercase hex encoding of a byte string (`bytes.hex()` /
`hashlib.sha256(..).hexdigest()`). -/
def toHexL (b : List Nat) : List Nat :=
  b.flatMap (fun x => [hexDig (x / 16 % 16), hexDig (x % 16)])

/-- Decode a list of hex digit characters two at a time. -/
def hexPairs : List Nat → Option (List Nat)
  | [] => some []
  | [_] => none
  | c1 :: c2 :: t =>
    match hexDigVal c1, hexDigVal c2, hexPairs t with
    | some h, some l, some r => some ((h * 16 + l) :: r)
    | _, _, _ => none

/-- `bytes.fromhex(s)`: ASCII whitespace is skipped, then hex digits are
consumed in pairs. -/
def hexDecode (s : List Nat) : Option (List Nat) :=
  hexPairs (s.filter (fun c => ¬ isSpaceC c))

/-- Strict lexicographic comparison of code point lists, as Python `<`
on strings. -/
def lexLt : List Nat → List Nat → Bool
  | [], [] => false
  | [], _ :: _ => true
  | _ :: _, [] => false
  | a :: as, b :: bs => if a < b then true else if b < a then false else lexLt as bs

/-- Non-strict lexicographic comparison, as Python `<=` on strings. -/
def lexLe (a b : List Nat) : Bool := lexLt a b || a == b

/-- Insert an entry into a key-sorted association list. -/
def insertByKey (e : List Nat × List Nat) :
    List (List Nat × List Nat) → List (List Nat × List Nat)
  | [] => [e]
  | h :: t => if lexLe e.1 h.1 then e :: h :: t else h :: insertByKey e t

/-- Sort an association list by key, as Python `sorted(..., key=...)`
with string keys. -/
def sortByKey (l : List (List Nat × List Nat)) : List (List Nat × List Nat) :=
  l.foldr insertByKey []

/-- `zipfile.ZipFile.open(name).read()`: the bytes of the last entry with
the given name, if any (`NameToInfo` is assigned in order, so later
entries shadow earlier ones). -/
def zopen (ar : List (List Nat × List Nat)) (name : List Nat) : Option (List Nat) :=
  (ar.reverse.find? (fun e => e.1 == name)).map (fun e => e.2)

/-- Boolean set equality of two lists, as Python `set(a) == set(b)`. -/
def sameSet (a b : List (List Nat)) : Bool :=
  a.all (fun x => b.contains x) && b.all (fun x => a.contains x)

/-! ## YAML value model and codec

A flat universe of YAML values: scalars, lists of scalars and maps of
scalars.  This covers every value the claims quantify over.  `yenc` and
`ydec` form an executable stand-in for `yaml.safe_dump`/`yaml.safe_load`;
the pipeline only relies on decode-of-dump returning the dumped mapping.
Mappings are association lists; the values appearing in proofs have
distinct keys, matching Python `dict` semantics. -/

/-- A scalar YAML value. -/
inductive YScalar where
  | ynull : YScalar
  | ybool : Bool → YScalar
  | yint : Int → YScalar
  | ystr : List Nat → YScalar
deriving DecidableEq, Repr

/-- A YAML document in the flat model. -/
inductive YVal where
  | scal : YScalar → YVal
  | ylist : List YScalar → YVal
  | ymap : List (YScalar × YScalar) → YVal
deriving DecidableEq, Repr

/-- Python truthiness of a YAML value (`bool(v)`). -/
def ytruthy : YVal → Bool
  | .scal .ynull => false
  | .scal (.ybool b) => b
  | .scal (.yint n) => n ≠ 0
  | .scal (.ystr s) => s ≠ []
  | .ylist l => l ≠ []
  | .ymap m => m ≠ []

/-- Whether a scalar is a Python `str`. -/
def YScalar.isStr : YScalar → Bool
  | .ystr _ => true
  | _ => false

/-- The string carried by a scalar (defaulting to the empty string). -/
def YScalar.strVal : YScalar → List Nat
  | .ystr s => s
  | _ => []

/-- Length-prefixed encoding of a string. -/
def encStr (s : List Nat) : List Nat := s.length :: s

/-- Encoding of one scalar. -/
def encScalar : YScalar → List Nat
  | .ynull => [0]
  | .ybool b => [1, cond b 1 0]
  | .yint n => [2, cond (0 ≤ n) 0 1, n.natAbs]
  | .ystr s => 3 :: encStr s

/-- Encoding of a YAML document. -/
def yenc : YVal → List Nat
  | .scal v => 0 :: encScalar v
  | .ylist l => 1 :: l.length :: (l.map encScalar).flatten
  | .ymap m => 2 :: m.length :: (m.map (fun p => encScalar p.1 ++ encScalar p.2)).flatten

/-- `yaml.safe_dump(h, sort_keys=True)` for a string-to-string mapping
whose keys were already sorted by the caller. -/
def ydump (m : List (List Nat × List Nat)) : List Nat :=
  yenc (.ymap (m.map (fun p => (YScalar.ystr p.1, YScalar.ystr p.2))))

/-- Decode one scalar, returning the unread rest. -/
def decScalar : List Nat → Option (YScalar × List Nat)
  | 0 :: r => some (.ynull, r)
  | 1 :: b :: r => if b ≤ 1 then some (.ybool (b = 1), r) else none
  | 2 :: sg :: a :: r =>
    if sg = 0 then some (.yint (Int.ofNat a), r)
    else if sg = 1 then some (.yint (-(Int.ofNat a)), r) else none
  | 3 :: n :: r => if n ≤ r.length then some (.ystr (r.take n), r.drop n) else none
  | _ => none

/-- Decode `k` consecutive scalars. -/
def decScalars : Nat → List Nat → Option (List YScalar × List Nat)
  | 0, r => some ([], r)
  | k + 1, r =>
    match decScalar r with
    | some (v, r1) =>
      match decScalars k r1 with
      | some (vs, r2) => some (v :: vs, r2)
      | none => none
    | none => none

/-- Decode `k` consecutive scalar pairs. -/
def decPairs : Nat → List Nat → Option (List (YScalar × YScalar) × List Nat)
  | 0, r => some ([], r)
  | k + 1, r =>
    match decScalar r with
    | some (a, r1) =>
      match decScalar r1 with
      | some (b, r2) =>
        match decPairs k r2 with
        | some (ps, r3) => some ((a, b) :: ps, r3)
        | none => none
      | none => none
    | none => none

/-- `yaml.safe_load` in the flat model.  An empty input is the empty
document (Python `None`); trailing garbage or an unknown shape is a parse
error (`yaml.YAMLError`). -/
def ydec (s : List Nat) : Option YVal :=
  match s with
  | [] => some (.scal .ynull)
  | 0 :: r =>
    match decScalar r with
    | some (v, []) => some (.scal v)
    | _ => none
  | 1 :: k :: r =>
    match decScalars k r with
    | some (l, []) => some (.ylist l)
    | _ => none
  | 2 :: k :: r =>
    match decPairs k r with
    | some (m, []) => some (.ymap m)
    | _ => none
  | _ => none

/-! ## `egg/hashing.py` -/

/-- A Python exception escaping a function in the model. -/
inductive PyErr where
  | valueError : String → PyErr
  | yamlError : PyErr
  | fileNotFound : PyErr
deriving DecidableEq, Repr

instance {ε α : Type} [DecidableEq ε] [DecidableEq α] : DecidableEq (Except ε α) := by
  intro a b
  cases a <;> cases b
  case error.error x y =>
    exact if h : x = y then isTrue (by rw [h]) else isFalse (by simp [h])
  case ok.ok x y =>
    exact if h : x = y then isTrue (by rw [h]) else isFalse (by simp [h])
  case error.ok x y => exact isFalse (by simp)
  case ok.error x y => exact isFalse (by simp)

/-- The archive name of the hash index file. -/
def hyName : List Nat := strN "hashes.yaml"

/-- The archive name of the signature file. -/
def hsName : List Nat := strN "hashes.sig"

/-- `_signing_key(key)` for an explicit key: a 32-byte key is used as is,
anything else is replaced by its SHA-256 digest (the seed bytes of the
resulting `SigningKey`). -/
def signingKeyBytes (sha : List Nat → List Nat) (key : List Nat) : List Nat :=
  if key.length = 32 then key else sha key

/-- `_verify_key(key)` for an explicit key: a 64-byte value is first
interpreted as hex if possible, then anything that is not 32 bytes is
replaced by its SHA-256 digest (the bytes of the resulting `VerifyKey`). -/
def verifyKeyBytes (sha : List Nat → List Nat) (key : List Nat) : List Nat :=
  let key1 :=
    if key.length = 64 then
      match hexDecode key with
      | some k => k
      | none => key
    else key
  if key1.length = 32 then key1 else sha key1

/-- The loop of `compute_hashes`: one `Dict` insertion per file with a
duplicate-key guard. -/
def computeHashesGo (sha : List Nat → List Nat) (acc : List (List Nat × List Nat)) :
    List (List Nat × List Nat) → Except PyErr (List (List Nat × List Nat))
  | [] => .ok acc
  | f :: t =>
    if acc.any (fun e => e.1 == f.1) then .error (.valueError "Duplicate file basename")
    else computeHashesGo sha (acc ++ [(f.1, toHexL (sha f.2))]) t

/-- `compute_hashes(files, base_dir=S)` over already-staged (relative
path, bytes) pairs.  Fails with `ValueError` on a duplicate relative
path. -/
def compute_hashes (sha : List Nat → List Nat) (files : List (List Nat × List Nat)) :
    Except PyErr (List (List Nat × List Nat)) :=
  computeHashesGo sha [] files

/-- The inline path scan of `verify_archive`: an entry name is rejected
when `PurePosixPath(name)` is absolute or has a `..` part. -/
def unsafeName (s : List Nat) : Bool :=
  posixIsAbs s || (posixParts s).contains (strN "..")

/-- Lines 173–178 of `egg/hashing.py`: `yaml.safe_load(hashes_bytes) or {}`
followed by the mapping and string checks.  Note the Python `or {}`: any
*falsy* parse (None, False, 0, empty string, empty list, empty dict) is
replaced by the empty dict before the `isinstance` test. -/
def parseHashIndex (hb : List Nat) : Except PyErr (List (List Nat × List Nat)) :=
  match ydec hb with
  | none => .error .yamlError
  | some v =>
    match (if ytruthy v then v else .ymap []) with
    | .ymap items =>
      if ¬ items.all (fun p => p.1.isStr && p.2.isStr) then
        .error (.valueError "hashes.yaml keys and values must be strings")
      else .ok (items.map (fun p => (p.1.strVal, p.2.strVal)))
    | _ => .error (.valueError "hashes.yaml must contain a mapping")

/-- One iteration of the digest loop: open the listed entry (False when
missing) and compare its SHA-256 hex digest with the recorded one. -/
def digestOk (sha : List Nat → List Nat) (ar : List (List Nat × List Nat))
    (p : List Nat × List Nat) : Bool :=
  match zopen ar p.1 with
  | none => false
  | some d => toHexL (sha d) == p.2

/-- `set(zf.namelist())` with `hashes.yaml` and `hashes.sig` discarded
(still as a list; all uses are set-based). -/
def residualNames (ar : List (List Nat × List Nat)) : List (List Nat) :=
  (ar.map (fun e => e.1)).filter (fun n => n ≠ hyName ∧ n ≠ hsName)

/-- `verify_archive(archive, public_key=pk)` over the entry list of the
ZIP, parametrized by the SHA-256 function `sha` and the Ed25519 check
`vsig vk msg sig`.  Returns `ok true`/`ok false` as the Python function
returns `True`/`False`; `error` models an uncaught exception.  `vsig`
returning `false` stands for `BadSignatureError` (nacl's `ValueError` on
a malformed signature length is outside the model). -/
def verify_archive (sha : List Nat → List Nat)
    (vsig : List Nat → List Nat → List Nat → Bool)
    (publicKey : List Nat) (ar : List (List Nat × List Nat)) : Except PyErr Bool :=
  if ar.any (fun e => unsafeName e.1) then .ok false
  else
    match zopen ar hyName, zopen ar hsName with
    | some hashesBytes, some sigText =>
      match hexDecode (strip sigText) with
      | none => .error (.valueError "non-hexadecimal number found in fromhex() arg")
      | some signature =>
        if ¬ vsig (verifyKeyBytes sha publicKey) hashesBytes signature then .ok false
        else
          match parseHashIndex hashesBytes with
          | .error e => .error e
          | .ok hashes =>
            if ¬ hashes.all (fun p => digestOk sha ar p) then .ok false
            else
              if sameSet (residualNames ar) (hashes.map (fun p => p.1)) then .ok true
              else .ok false
    | _, _ => .ok false

/-- `sign_hashes(path, private_key=k)`: derive the signing key from `k`
and return the lowercase hex of the Ed25519 signature of the file
bytes. -/
def sign_hashes (sha : List Nat → List Nat)
    (sign : List Nat → List Nat → List Nat) (privateKey msg : List Nat) : List Nat :=
  toHexL (sign (signingKeyBytes sha privateKey) msg)

/-! ## `egg/composer.py` -/

/-- The inputs `compose` stages: the manifest path and bytes, and the
cells' normalized relative source paths with their on-disk bytes, in
manifest order (`_collect_sources`).  Source existence — checked by
`compose` with `src.is_file()` — is built into the representation. -/
structure StageInput where
  manifestPath : List Nat
  manifestBytes : List Nat
  sources : List (List Nat × List Nat)

/-- `compose(manifest_path, output_path)`: stage the manifest under
`manifest_path.name`, stage each source at its relative path, hash the
staged files, dump the sorted hash index, sign it, and emit the ZIP
entries sorted by relative POSIX path (fixed timestamp and DEFLATE are
constant metadata, not modelled).  The signing seed is a parameter: the
call in the source, `sign_hashes(hashes_path, key=SIGNING_KEY)`, names a
constant `egg.hashing` does not define and a keyword `sign_hashes` does
not accept, so the step is modelled as `sign_hashes` applied to the hash
index bytes with a seed (the behaviour the repository's tests and
`egg_cli.py` rely on). -/
def compose (sha : List Nat → List Nat) (sign : List Nat → List Nat → List Nat)
    (signingSeed : List Nat) (inp : StageInput) :
    Except PyErr (List (List Nat × List Nat)) :=
  let copied := (pathName inp.manifestPath, inp.manifestBytes) :: inp.sources
  match compute_hashes sha copied with
  | .error e => .error e
  | .ok hashes =>
    let hashesBytes := ydump (sortByKey hashes)
    let sigText := sign_hashes sha sign signingSeed hashesBytes
    let entries := copied ++ [(hyName, hashesBytes), (hsName, sigText)]
    .ok (sortByKey entries)

/-! ## Concrete crypto instances for witnesses

Closed witness statements need executable stand-ins for SHA-256 and
Ed25519.  They satisfy the algebraic laws the theorems hypothesize
(determinism, signature correctness, byte-ranged signatures) without
being cryptographic. -/

/-- Toy 32-byte digest: 31 zero bytes and the input length mod 256. -/
def sha0 (b : List Nat) : List Nat := List.replicate 31 0 ++ [b.length % 256]

/-- Toy signature: key followed by message, reduced to bytes. -/
def sign0 (k m : List Nat) : List Nat := (k ++ m).map (fun x => x % 256)

/-- Toy signature check matching `sign0` under equal key bytes. -/
def vsig0 (vk m s : List Nat) : Bool := s == (vk ++ m).map (fun x => x % 256)

/-- Key-ordering predicate used for archive entries. -/
def keyLe (a b : List Nat × List Nat) : Prop := lexLe a.1 b.1 = true

/-- Strict key ordering. -/
def keyLt (a b : List Nat × List Nat) : Prop := lexLt a.1 b.1 = true

/-- The staged files of a `StageInput`, in staging order. -/
def stagedFiles (inp : StageInput) : List (List Nat × List Nat) :=
  (pathName inp.manifestPath, inp.manifestBytes) :: inp.sources

/-- A concrete staging input used by witnesses: a manifest named
`custom.yaml` with one Python cell. -/
def wInp : StageInput :=
  { manifestPath := strN "/work/custom.yaml"
    manifestBytes := strN "name: D"
    sources := [(strN "hello.py", strN "print(1)")] }

/-- A concrete 32-byte signing seed for witnesses. -/
def wSeed : List Nat := List.replicate 32 7

/-- A staging input whose sources are enumerated in one order. -/
def wInpB : StageInput :=
  { manifestPath := strN "/work/custom.yaml"
    manifestBytes := strN "name: D"
    sources := [(strN "b.py", strN "B"), (strN "a.py", strN "A")] }

/-- The same staged files as `wInpB`, enumerated in the other order. -/
def wInpC : StageInput :=
  { manifestPath := strN "/work/custom.yaml"
    manifestBytes := strN "name: D"
    sources := [(strN "a.py", strN "A"), (strN "b.py", strN "B")] }

/-- The parsed hash index of an archive: the contents of `hashes.yaml`
parsed as `verify_archive` parses them, when that succeeds. -/
def archiveIndex (ar : List (List Nat × List Nat)) :
    Option (List (List Nat × List Nat)) :=
  match zopen ar hyName with
  | none => none
  | some hb =>
    match parseHashIndex hb with
    | .ok hashes => some hashes
    | .error _ => none

/-- The metadata entries of a small concrete verifying archive: a hash
index listing only `a.py` and a matching signature under the toy
crypto. -/
def wArMeta : List (List Nat × List Nat) :=
  [(hyName, ydump [(strN "a.py", toHexL (sha0 (strN "print")))]),
   (hsName, sign_hashes sha0 sign0 wSeed
      (ydump [(strN "a.py", toHexL (sha0 (strN "print")))]))]

/-- A small concrete archive that verifies under the toy crypto. -/
def wAr : List (List Nat × List Nat) := (strN "a.py", strN "print") :: wArMeta

/-- A ZIP with a duplicate `a.py` entry: same listed name and bytes
twice, then the metadata files.  It verifies, because the name scan,
digest loop and closure are all insensitive to the duplicate. -/
def cexC2ar : List (List Nat × List Nat) := (strN "a.py", strN "print") :: wAr

/-- A Windows drive prefix (`X:` at the start of the name). -/
def hasDrivePrefix (s : List Nat) : Bool :=
  match s with
  | c :: 58 :: _ => (65 ≤ c ∧ c ≤ 90) ∨ (97 ≤ c ∧ c ≤ 122)
  | _ => false

/-- Modelled from the spec: `is_safe_archive_path(s)` as §4.1 states it —
non-empty, relative, no `..` segment, no Windows drive prefix.  The
committed code has no such function; `verify_archive` inlines a weaker
scan.  This definition exists only to compare the two. -/
def specSafeArchivePath (s : List Nat) : Bool :=
  s ≠ [] ∧ posixIsAbs s = false ∧ (posixParts s).contains (strN "..") = false ∧
    hasDrivePrefix s = false

/-- The hash index bytes of the drive-prefix archive. -/
def cexC4hb : List Nat := ydump [(strN "c:/x", toHexL (sha0 (strN "print")))]

/-- An archive whose only data entry is named `c:/x`. -/
def cexC4ar : List (List Nat × List Nat) :=
  [(strN "c:/x", strN "print"), (hyName, cexC4hb),
   (hsName, sign_hashes sha0 sign0 wSeed cexC4hb)]

/-- A YAML value as fed to `load_manifest`. -/
inductive MV where
  | mstr : List Nat → MV
  | mbool : Bool → MV
  | mint : Int → MV
  | mnull : MV
  | mlist : List MV → MV
  | mmap : List (MV × MV) → MV

mutual

/-- Structural equality on `MV`. -/
def MV.beq : MV → MV → Bool
  | .mstr a, .mstr b => a == b
  | .mbool a, .mbool b => a == b
  | .mint a, .mint b => a == b
  | .mnull, .mnull => true
  | .mlist a, .mlist b => MV.beqList a b
  | .mmap a, .mmap b => MV.beqPairs a b
  | _, _ => false

/-- Structural equality on lists of `MV`. -/
def MV.beqList : List MV → List MV → Bool
  | [], [] => true
  | a :: as, b :: bs => MV.beq a b && MV.beqList as bs
  | _, _ => false

/-- Structural equality on pair lists of `MV`. -/
def MV.beqPairs : List (MV × MV) → List (MV × MV) → Bool
  | [], [] => true
  | (k1, v1) :: as, (k2, v2) :: bs => MV.beq k1 k2 && MV.beq v1 v2 && MV.beqPairs as bs
  | _, _ => false

end

instance : BEq MV := ⟨MV.beq⟩

/-- Python dict lookup `d.get(k)` for a string key on an `MV` mapping. -/
def mget (m : List (MV × MV)) (k : List Nat) : Option MV :=
  (m.find? (fun p => p.1 == MV.mstr k)).map (fun p => p.2)

/-- Python `k in d` for a string key. -/
def mhas (m : List (MV × MV)) (k : List Nat) : Bool := (mget m k).isSome

/-- A parsed manifest cell. -/
structure Cell where
  language : List Nat
  source : List Nat
deriving DecidableEq, Repr

/-- A parsed manifest. -/
structure Manifest where
  name : List Nat
  description : List Nat
  cells : List Cell
  permissions : Option (List (List Nat × Bool))
  dependencies : Option (List (List Nat))
  author : Option (List Nat)
  created : Option (List Nat)
  license : Option (List Nat)
deriving DecidableEq, Repr

/-- `(manifest_dir / p).resolve(strict=False)` on a symlink-free tree:
append components to the resolved base, dropping empty and `.`
components and letting `..` pop (the root absorbs excess `..`). -/
def resolveComps (base : List (List Nat)) (comps : List (List Nat)) : List (List Nat) :=
  comps.foldl
    (fun acc c =>
      if c = [] ∨ c = strN "." then acc
      else if c = strN ".." then acc.dropLast
      else acc ++ [c])
    base

/-- `Path(...).as_posix()` of a relative component list (`.` when
empty, as `relative_to` yields for equal paths). -/
def joinSlash (comps : List (List Nat)) : List Nat :=
  match comps with
  | [] => strN "."
  | c :: t => t.foldl (fun acc x => acc ++ slashC :: x) c

/-- `_normalize_source(path, manifest_dir)` from `egg/manifest.py`:
reject absolute paths, resolve against the manifest directory, require
containment, and return the POSIX-relative form. -/
def normalize_source (base : List (List Nat)) (p : List Nat) :
    Except PyErr (List Nat) :=
  if posixIsAbs p then .error (.valueError "Absolute source paths are not allowed")
  else
    let r := resolveComps base (splitSlash p)
    if base.isPrefixOf r then .ok (joinSlash (r.drop base.length))
    else .error (.valueError "Source path escapes manifest directory")

/-- Validation of one element of `cells` (`egg/manifest.py` lines
134–144): must be a mapping, must contain `language` and `source`, both
strings; the source is then normalized.  No other key is inspected. -/
def validateCell (base : List (List Nat)) (cell : MV) : Except PyErr Cell :=
  match cell with
  | .mmap m =>
    match mget m (strN "language"), mget m (strN "source") with
    | none, _ => .error (.valueError "Each cell requires language and source")
    | _, none => .error (.valueError "Each cell requires language and source")
    | some lv, some sv =>
      match lv with
      | .mstr lang =>
        match sv with
        | .mstr src =>
          (normalize_source base src).map (fun n => { language := lang, source := n })
        | _ => .error (.valueError "Cell source must be a string")
      | _ => .error (.valueError "Cell language must be a string")
  | _ => .error (.valueError "Cell must be a mapping")

/-- The cells loop of `load_manifest`. -/
def validateCells (base : List (List Nat)) : List MV → Except PyErr (List Cell)
  | [] => .ok []
  | c :: t =>
    match validateCell base c with
    | .error e => .error e
    | .ok cell => (validateCells base t).map (fun cs => cell :: cs)

/-- The closed set of manifest root fields. -/
def rootFields : List (List Nat) :=
  [strN "name", strN "description", strN "cells", strN "permissions",
   strN "dependencies", strN "author", strN "created", strN "license"]

/-- The permissions loop: keys must be strings, values booleans. -/
def parsePermPairs : List (MV × MV) → Except PyErr (List (List Nat × Bool))
  | [] => .ok []
  | (k, v) :: t =>
    match k with
    | .mstr ks =>
      match v with
      | .mbool b => (parsePermPairs t).map (fun r => (ks, b) :: r)
      | _ => .error (.valueError "Permission must be a boolean")
    | _ => .error (.valueError "Permission key must be a string")

/-- `permissions` validation. -/
def parsePermissions : Option MV → Except PyErr (Option (List (List Nat × Bool)))
  | none => .ok none
  | some (.mmap pm) => (parsePermPairs pm).map some
  | some _ => .error (.valueError "permissions must be a mapping")

/-- The dependencies loop: entries must be strings. -/
def parseDepList : List MV → Except PyErr (List (List Nat))
  | [] => .ok []
  | d :: t =>
    match d with
    | .mstr s => (parseDepList t).map (fun r => s :: r)
    | _ => .error (.valueError "dependency entries must be strings")

/-- `dependencies` validation. -/
def parseDeps : Option MV → Except PyErr (Option (List (List Nat)))
  | none => .ok none
  | some (.mlist l) => (parseDepList l).map some
  | some _ => .error (.valueError "dependencies must be a list")

/-- An optional scalar string field. -/
def parseOptStr (v : Option MV) (msg : String) : Except PyErr (Option (List Nat)) :=
  match v with
  | none => .ok none
  | some (.mstr s) => .ok (some s)
  | some _ => .error (.valueError msg)

/-- `load_manifest` over the parsed YAML document (`egg/manifest.py`
lines 53–155): root must be a mapping, required fields present, unknown
root fields rejected, scalar types enforced, then each cell validated
against the manifest directory `base`. -/
def load_manifest (base : List (List Nat)) (data : MV) : Except PyErr Manifest :=
  match data with
  | .mmap m =>
    if ¬ (mhas m (strN "name") && mhas m (strN "description") && mhas m (strN "cells")) then
      .error (.valueError "Missing required field")
    else if ¬ m.all (fun p => rootFields.any (fun f => p.1 == MV.mstr f)) then
      .error (.valueError "Unknown fields")
    else
      match mget m (strN "name") with
      | some (.mstr nm) =>
        match mget m (strN "description") with
        | some (.mstr ds) =>
          match mget m (strN "cells") with
          | some (.mlist cellsData) =>
            match parsePermissions (mget m (strN "permissions")) with
            | .error e => .error e
            | .ok perms =>
              match parseDeps (mget m (strN "dependencies")) with
              | .error e => .error e
              | .ok deps =>
                match parseOptStr (mget m (strN "author")) "author must be a string" with
                | .error e => .error e
                | .ok author =>
                  match parseOptStr (mget m (strN "created")) "created must be a string" with
                  | .error e => .error e
                  | .ok created =>
                    match parseOptStr (mget m (strN "license")) "license must be a string" with
                    | .error e => .error e
                    | .ok license =>
                      match validateCells base cellsData with
                      | .error e => .error e
                      | .ok cells =>
                        .ok { name := nm, description := ds, cells := cells,
                              permissions := perms, dependencies := deps,
                              author := author, created := created, license := license }
          | some _ => .error (.valueError "cells must be a list")
          | none => .error (.valueError "Missing required field")
        | some _ => .error (.valueError "description must be a string")
        | none => .error (.valueError "Missing required field")
      | some _ => .error (.valueError "name must be a string")
      | none => .error (.valueError "Missing required field")
  | _ => .error (.valueError "Manifest root must be a mapping")

/-- A manifest document whose cell carries an extra key beyond
`language` and `source`. -/
def cexC7data : MV := .mmap
  [(.mstr (strN "name"), .mstr (strN "Demo")),
   (.mstr (strN "description"), .mstr (strN "d")),
   (.mstr (strN "cells"), .mlist
     [.mmap [(.mstr (strN "language"), .mstr (strN "python")),
             (.mstr (strN "source"), .mstr (strN "a.py")),
             (.mstr (strN "extra"), .mstr (strN "x"))]])]

/-! ## `egg/runtime_fetcher.py`

The filesystem is a partial map from (flat) file names to bytes; the
directory containing `dest` is abstracted away, consistently for `dest`
and the temporary file.  An HTTP response is its `Content-Length` header
and the streamed body, or a transfer failure
(`HTTPError`/`URLError`/timeout). -/

/-- A file system fragment. -/
def Fs : Type := List Nat → Option (List Nat)

/-- Write a file. -/
def fset (fs : Fs) (k v : List Nat) : Fs :=
  fun p => if p = k then some v else fs p

/-- `unlink(missing_ok=True)`. -/
def ferase (fs : Fs) (k : List Nat) : Fs :=
  fun p => if p = k then none else fs p

/-- Index of the last `.` in a file name, if any. -/
def lastDotIdx (name : List Nat) : Option Nat :=
  (name.foldl
    (fun (st : Nat × Option Nat) c =>
      (st.1 + 1, if c = 46 then some st.1 else st.2))
    (0, none)).2

/-- `PurePath.with_suffix(".tmp")`: CPython takes `name.rfind('.')` as
the suffix start when `0 < i < len(name) - 1`, REPLACES that suffix, and
otherwise appends. -/
def withSuffixTmp (name : List Nat) : List Nat :=
  match lastDotIdx name with
  | some i =>
    if 0 < i ∧ i < name.length - 1 then name.take i ++ strN ".tmp"
    else name ++ strN ".tmp"
  | none => name ++ strN ".tmp"

/-- A download failure kind. -/
inductive DLErr where
  | fetchFail : DLErr
  | truncated : DLErr
  | checksum : DLErr
deriving DecidableEq, Repr

/-- An HTTP GET outcome. -/
inductive NetResp where
  | fail : NetResp
  | resp : Option Nat → List Nat → NetResp

/-- `_download_container(image, dest, base_url)` (`egg/runtime_fetcher.py`
lines 48–172), from the cached-destination check onward: a cached `dest`
matching an expected digest is kept; otherwise the body streams into
`dest.with_suffix(".tmp")`; `Content-Length` (when present) and the
expected digest (when supplied) are checked; the temporary is renamed
onto `dest` on success and unlinked on every failure.  The URL
construction and manifest-dir containment check do not affect the
file-state claims and are omitted. -/
def _download_container (sha : List Nat → List Nat) (dest : List Nat)
    (resp : NetResp) (expected : Option (List Nat)) (fs : Fs) :
    Option DLErr × Fs :=
  let cachedOk :=
    match fs dest, expected with
    | some cached, some e => toHexL (sha cached) == e
    | _, _ => false
  if cachedOk then (none, fs)
  else
    let tmp := withSuffixTmp dest
    match resp with
    | .fail => (some .fetchFail, ferase fs tmp)
    | .resp contentLength body =>
      let fs1 := fset fs tmp body
      let lenOk :=
        match contentLength with
        | some t => t == body.length
        | none => true
      if ¬ lenOk then (some .truncated, ferase fs1 tmp)
      else
        let digOk :=
          match expected with
          | some e => toHexL (sha body) == e
          | none => true
        if ¬ digOk then (some .checksum, ferase fs1 tmp)
        else (none, fset (ferase fs1 tmp) dest body)

/-- The file system of the C8 counterexample: unrelated files already
sit at both candidate temporary names. -/
def cexC8fs : Fs := fun p =>
  if p = strN "python_3.11.tmp" then some (strN "X")
  else if p = strN "python_3.11.img.tmp" then some (strN "Y")
  else none

/-! ## `egg/precompute.py`

`precompute_cells` is modelled over the already-loaded manifest cells
(manifest parsing is `load_manifest`, embedded above), a filesystem
fragment keyed by manifest-relative POSIX paths, and an environment
supplying the language→command table (`get_lang_command`), `PATH`
lookups (`shutil.which`) and the stdout of a successfully executed cell
command (`subprocess.run(..., check=True)`; a non-zero exit would raise
and is outside the idempotence claim, which conditions on a successful
first run).  The model counts command executions. -/

/-- The execution environment of `precompute_cells`. -/
structure PCEnv where
  langCmd : List Nat → Option (List (List Nat))
  which : List Nat → Bool
  runCell : List (List Nat) → List Nat → List Nat

/-- Python `str.lower()` on ASCII. -/
def toLowerS (s : List Nat) : List Nat :=
  s.map (fun c => if 65 ≤ c ∧ c ≤ 90 then c + 32 else c)

/-- `src.with_name(src.name + ".out")` for a relative POSIX path. -/
def outName (s : List Nat) : List Nat := s ++ strN ".out"

/-- The cache file name, `precompute_hashes.yaml`, next to the
manifest. -/
def cachePathName : List Nat := strN "precompute_hashes.yaml"

/-- `load_hashes` from `egg/hashing.py` (used for the precompute cache):
an empty document is the empty map; a non-mapping raises; keys and
values must be strings.  Unlike `verify_archive`, there is no `or {}`:
only `None` is forgiven. -/
def load_hashes (b : List Nat) : Except PyErr (List (List Nat × List Nat)) :=
  match ydec b with
  | none => .error .yamlError
  | some (.scal .ynull) => .ok []
  | some (.ymap items) =>
    if ¬ items.all (fun p => p.1.isStr && p.2.isStr) then
      .error (.valueError "hashes.yaml keys and values must be strings")
    else .ok (items.map (fun p => (p.1.strVal, p.2.strVal)))
  | some _ => .error (.valueError "hashes.yaml must contain a mapping")

/-- Python dict assignment `d[k] = v`: overwrite in place or append. -/
def updateAssoc (l : List (List Nat × List Nat)) (k v : List Nat) :
    List (List Nat × List Nat) :=
  if l.any (fun p => p.1 == k) then
    l.map (fun p => if p.1 == k then (k, v) else p)
  else l ++ [(k, v)]

/-- Python dict lookup `d.get(k)`. -/
def lookupAssoc (l : List (List Nat × List Nat)) (k : List Nat) : Option (List Nat) :=
  (l.find? (fun p => p.1 == k)).map (fun p => p.2)

/-- The cell loop of `precompute_cells` (`egg/precompute.py` lines
31–50).  Per cell: resolve the language command, check the runtime
binary, hash the source, record the digest, and either reuse a cached
`<source>.out` (when the previous digest matches and the file exists) or
execute the command and capture stdout.  The final `Nat` counts
executions. -/
def precomputeGo (sha : List Nat → List Nat) (env : PCEnv)
    (prev : List (List Nat × List Nat)) :
    Fs → List (List Nat × List Nat) → List (List Nat) → Nat → List Cell →
    Except PyErr (List (List Nat) × Fs × List (List Nat × List Nat) × Nat)
  | fs, nh, outs, count, [] => .ok (outs, fs, nh, count)
  | fs, nh, outs, count, c :: t =>
    match env.langCmd (toLowerS c.language) with
    | none => .error (.valueError "Unsupported language")
    | some cmd =>
      if ¬ env.which (cmd.headD []) then .error .fileNotFound
      else
        match fs c.source with
        | none => .error .fileNotFound
        | some srcBytes =>
          if (lookupAssoc prev c.source == some (toHexL (sha srcBytes))) &&
              (fs (outName c.source)).isSome then
            precomputeGo sha env prev fs
              (updateAssoc nh c.source (toHexL (sha srcBytes)))
              (outs ++ [outName c.source]) count t
          else
            precomputeGo sha env prev
              (fset fs (outName c.source) (env.runCell cmd c.source))
              (updateAssoc nh c.source (toHexL (sha srcBytes)))
              (outs ++ [outName c.source]) (count + 1) t

/-- `precompute_cells(manifest_path)`: load the cache if present, run
the cell loop, and persist the new cache (sorted, as
`write_hashes_file` dumps it). -/
def precompute_cells (sha : List Nat → List Nat) (env : PCEnv) (cells : List Cell)
    (fs : Fs) : Except PyErr (List (List Nat) × Fs × Nat) :=
  match (match fs cachePathName with
         | some cb => load_hashes cb
         | none => .ok []) with
  | .error e => .error e
  | .ok prev =>
    match precomputeGo sha env prev fs [] [] 0 cells with
    | .error e => .error e
    | .ok r =>
      .ok (r.1, fset r.2.1 cachePathName (ydump (sortByKey r.2.2.1)), r.2.2.2)

/-- A one-cell environment for exercising the precompute pipeline. -/
def wC9env : PCEnv where
  langCmd := fun l => if l = strN "python" then some [strN "py"] else none
  which := fun _ => true
  runCell := fun _ _ => strN "done"

/-- One python cell whose source is `a.py`. -/
def wC9cells : List Cell := [{ language := strN "python", source := strN "a.py" }]

/-- A filesystem holding just the cell source. -/
def wC9fs : Fs := fun p => if p = strN "a.py" then some (strN "print") else none

/-- The filesystem after a first precompute run: the cell output and the
digest cache have been written. -/
def wC9fs1 : Fs :=
  fset (fset wC9fs (outName (strN "a.py")) (strN "done")) cachePathName
    (ydump (sortByKey [(strN "a.py", toHexL (sha0 (strN "print")))]))

lemma decScalar_encScalar (v : YScalar) (r : List Nat) :
    decScalar (encScalar v ++ r) = some (v, r) := by
  cases v with
  | ynull => rfl
  | ybool b => cases b <;> rfl
  | yint n =>
    rcases le_or_lt 0 n with h | h
    · simp [encScalar, decScalar, h, Int.natAbs_of_nonneg h]
    · have h1 : ¬ (0 ≤ n) := not_le.mpr h
      simp [encScalar, decScalar, h1, Int.ofNat_natAbs_of_nonpos (le_of_lt h)]
  | ystr s =>
    simp [encScalar, encStr, decScalar, List.cons_append]

lemma decPairs_enc (m : List (YScalar × YScalar)) (r : List Nat) :
    decPairs m.length ((m.map (fun p => encScalar p.1 ++ encScalar p.2)).flatten ++ r) =
      some (m, r) := by
  induction m generalizing r with
  | nil => rfl
  | cons p t ih =>
    simp only [List.map_cons, List.flatten_cons, List.length_cons, List.append_assoc,
      decPairs, decScalar_encScalar, ih]

/-- Decoding a dump of a string-to-string mapping recovers that mapping:
the law `yaml.safe_load(yaml.safe_dump(h)) == h` the pipeline relies on. -/
theorem ydec_ydump (m : List (List Nat × List Nat)) :
    ydec (ydump m) = some (.ymap (m.map (fun p => (YScalar.ystr p.1, YScalar.ystr p.2)))) := by
  have h := decPairs_enc (m.map (fun p => (YScalar.ystr p.1, YScalar.ystr p.2))) []
  simp only [List.append_nil, List.map_map, List.length_map] at h
  simp only [ydump, yenc, ydec, List.length_map, List.map_map]
  rw [h]

/-! ## Order, sorting and lookup lemmas -/

lemma lexLt_cons_iff {a b : Nat} {as bs : List Nat} :
    lexLt (a :: as) (b :: bs) = true ↔ a < b ∨ (a = b ∧ lexLt as bs = true) := by
  simp only [lexLt]
  split
  · rename_i h; simp [h]
  · split
    · rename_i h1 h2
      constructor
      · intro h; simp at h
      · rintro (h | ⟨h, _⟩) <;> omega
    · rename_i h1 h2
      have hab : a = b := by omega
      simp [hab]

lemma lexLt_trans : ∀ {a b c : List Nat},
    lexLt a b = true → lexLt b c = true → lexLt a c = true
  | [], [], [], h, _ => by cases h
  | [], [], _ :: _, _, _ => rfl
  | [], _ :: _, [], _, h => by cases h
  | [], _ :: _, _ :: _, _, _ => rfl
  | _ :: _, [], _, h, _ => by cases h
  | _ :: _, _ :: _, [], _, h => by cases h
  | a :: as, b :: bs, c :: cs, h1, h2 => by
    rcases lexLt_cons_iff.mp h1 with hab | ⟨hab, h1t⟩ <;>
      rcases lexLt_cons_iff.mp h2 with hbc | ⟨hbc, h2t⟩
    · exact lexLt_cons_iff.mpr (Or.inl (by omega))
    · exact lexLt_cons_iff.mpr (Or.inl (by omega))
    · exact lexLt_cons_iff.mpr (Or.inl (by omega))
    · subst hab; subst hbc
      exact lexLt_cons_iff.mpr (Or.inr ⟨rfl, lexLt_trans h1t h2t⟩)

lemma lexLt_asymm : ∀ {a b : List Nat}, lexLt a b = true → lexLt b a = true → False
  | [], [], h, _ => by cases h
  | [], _ :: _, _, h => by cases h
  | _ :: _, [], h, _ => by cases h
  | a :: as, b :: bs, h1, h2 => by
    rcases lexLt_cons_iff.mp h1 with hab | ⟨hab, h1t⟩ <;>
      rcases lexLt_cons_iff.mp h2 with hba | ⟨hba, h2t⟩
    · omega
    · omega
    · omega
    · exact lexLt_asymm h1t h2t

lemma lexLe_cons_same {x : Nat} {as bs : List Nat} (h : lexLe as bs = true) :
    lexLe (x :: as) (x :: bs) = true := by
  simp only [lexLe, Bool.or_eq_true, beq_iff_eq] at h ⊢
  rcases h with h | h
  · exact Or.inl (lexLt_cons_iff.mpr (Or.inr ⟨rfl, h⟩))
  · subst h; exact Or.inr rfl

lemma lexLe_total (a b : List Nat) : lexLe a b = true ∨ lexLe b a = true := by
  induction a generalizing b with
  | nil => cases b <;> simp [lexLe, lexLt]
  | cons x xs ih =>
    cases b with
    | nil => simp [lexLe, lexLt]
    | cons y ys =>
      rcases Nat.lt_trichotomy x y with h | h | h
      · left
        simp only [lexLe, Bool.or_eq_true]
        exact Or.inl (lexLt_cons_iff.mpr (Or.inl h))
      · subst h
        rcases ih ys with h2 | h2
        · left; exact lexLe_cons_same h2
        · right; exact lexLe_cons_same h2
      · right
        simp only [lexLe, Bool.or_eq_true]
        exact Or.inl (lexLt_cons_iff.mpr (Or.inl h))

lemma lexLe_of_not_le {a b : List Nat} (h : ¬ lexLe a b = true) : lexLe b a = true := by
  rcases lexLe_total a b with h1 | h1
  · exact absurd h1 h
  · exact h1

lemma lexLe_trans {a b c : List Nat} (h1 : lexLe a b = true) (h2 : lexLe b c = true) :
    lexLe a c = true := by
  simp only [lexLe, Bool.or_eq_true, beq_iff_eq] at h1 h2 ⊢
  rcases h1 with h1 | h1
  · rcases h2 with h2 | h2
    · exact Or.inl (lexLt_trans h1 h2)
    · subst h2; exact Or.inl h1
  · subst h1; exact h2

lemma lexLt_of_lexLe_of_ne {a b : List Nat} (h : lexLe a b = true) (hne : a ≠ b) :
    lexLt a b = true := by
  simp only [lexLe, Bool.or_eq_true, beq_iff_eq] at h
  rcases h with h | h
  · exact h
  · exact absurd h hne

lemma insertByKey_perm (e : List Nat × List Nat) (l : List (List Nat × List Nat)) :
    List.Perm (insertByKey e l) (e :: l) := by
  induction l with
  | nil => exact List.Perm.refl _
  | cons h t ih =>
    simp only [insertByKey]
    split
    · exact List.Perm.refl _
    · exact (List.Perm.cons h ih).trans (List.Perm.swap e h t)

lemma sortByKey_perm (l : List (List Nat × List Nat)) : List.Perm (sortByKey l) l := by
  induction l with
  | nil => exact List.Perm.refl _
  | cons h t ih =>
    exact (insertByKey_perm h (sortByKey t)).trans (List.Perm.cons h ih)

lemma insertByKey_sorted (e : List Nat × List Nat) {l : List (List Nat × List Nat)}
    (hl : l.Pairwise keyLe) : (insertByKey e l).Pairwise keyLe := by
  induction l with
  | nil => simp [insertByKey, List.pairwise_singleton]
  | cons h t ih =>
    rcases List.pairwise_cons.mp hl with ⟨hh, ht⟩
    simp only [insertByKey]
    split
    · rename_i hle
      refine List.pairwise_cons.mpr ⟨?_, hl⟩
      intro x hx
      rcases List.mem_cons.mp hx with rfl | hx
      · exact hle
      · exact lexLe_trans hle (hh x hx)
    · rename_i hgt
      refine List.pairwise_cons.mpr ⟨?_, ih ht⟩
      intro x hx
      rcases List.mem_cons.mp ((insertByKey_perm e t).mem_iff.mp hx) with rfl | hx2
      · exact lexLe_of_not_le hgt
      · exact hh x hx2

lemma sortByKey_sorted (l : List (List Nat × List Nat)) :
    (sortByKey l).Pairwise keyLe := by
  induction l with
  | nil => exact List.Pairwise.nil
  | cons h t ih => exact insertByKey_sorted h ih

lemma pairwise_keyLt {l : List (List Nat × List Nat)}
    (hs : l.Pairwise keyLe) (hnd : (l.map (fun e => e.1)).Nodup) : l.Pairwise keyLt := by
  have hne : l.Pairwise (fun a b => a.1 ≠ b.1) := List.pairwise_map.mp hnd
  exact (hs.and hne).imp (fun h => lexLt_of_lexLe_of_ne h.1 h.2)

/-- With pairwise-distinct keys, a key-sorted list is determined by its
multiset of entries: sorting is canonical. -/
lemma sorted_nodupkeys_perm_eq {l1 l2 : List (List Nat × List Nat)}
    (hp : List.Perm l1 l2) (hs1 : l1.Pairwise keyLe) (hs2 : l2.Pairwise keyLe)
    (hnd : (l1.map (fun e => e.1)).Nodup) : l1 = l2 := by
  have hnd2 : (l2.map (fun e => e.1)).Nodup := ((hp.map _).nodup_iff).mp hnd
  haveI : IsAntisymm (List Nat × List Nat) keyLt :=
    ⟨fun _ _ h1 h2 => (lexLt_asymm h1 h2).elim⟩
  exact List.eq_of_perm_of_sorted hp (pairwise_keyLt hs1 hnd) (pairwise_keyLt hs2 hnd2)

lemma sortByKey_eq_of_perm {l1 l2 : List (List Nat × List Nat)}
    (hp : List.Perm l1 l2) (hnd : (l1.map (fun e => e.1)).Nodup) :
    sortByKey l1 = sortByKey l2 := by
  have h1 := sortByKey_perm l1
  have h2 := sortByKey_perm l2
  have hp2 : List.Perm (sortByKey l1) (sortByKey l2) := h1.trans (hp.trans h2.symm)
  have hnd1 : ((sortByKey l1).map (fun e => e.1)).Nodup := ((h1.map _).nodup_iff).mpr hnd
  exact sorted_nodupkeys_perm_eq hp2 (sortByKey_sorted l1) (sortByKey_sorted l2) hnd1

lemma zopen_eq_none {ar : List (List Nat × List Nat)} {k : List Nat}
    (h : ∀ e ∈ ar, e.1 ≠ k) : zopen ar k = none := by
  have : ar.reverse.find? (fun e => e.1 == k) = none :=
    List.find?_eq_none.mpr (fun e he => by
      simpa using h e (List.mem_reverse.mp he))
  simp [zopen, this]

/-- Looking up the name of an entry no later entry shadows returns its
bytes. -/
lemma zopen_mid {pre post : List (List Nat × List Nat)} {nm b : List Nat}
    (h : ∀ e ∈ post, e.1 ≠ nm) :
    zopen (pre ++ (nm, b) :: post) nm = some b := by
  have hpost : post.reverse.find? (fun e => e.1 == nm) = none :=
    List.find?_eq_none.mpr (fun e he => by
      simpa using h e (List.mem_reverse.mp he))
  simp [zopen, List.reverse_append, List.find?_append, hpost]

/-- Replacing the bytes of an entry does not affect lookups of other
names. -/
lemma zopen_other {pre post : List (List Nat × List Nat)} {nm b1 b2 k : List Nat}
    (hk : k ≠ nm) :
    zopen (pre ++ (nm, b1) :: post) k = zopen (pre ++ (nm, b2) :: post) k := by
  have hne : ((nm, b1) : List Nat × List Nat).1 ≠ k := fun h => hk h.symm
  have hne2 : ((nm, b2) : List Nat × List Nat).1 ≠ k := fun h => hk h.symm
  simp [zopen, List.reverse_append, List.find?_append, List.find?_cons_of_neg, hne, hne2]

/-- Peeling the first archive entry off a lookup: the rest wins unless
it lacks the name. -/
lemma zopen_cons {e : List Nat × List Nat} {t : List (List Nat × List Nat)}
    {k : List Nat} :
    zopen (e :: t) k = (zopen t k).or (if e.1 == k then some e.2 else none) := by
  simp only [zopen, List.reverse_cons, List.find?_append]
  cases h : t.reverse.find? (fun x => x.1 == k) with
  | none =>
    simp only [Option.or, Option.map]
    cases h2 : (e.1 == k) <;> simp [List.find?, h2]
  | some v =>
    simp [Option.or]

/-- Dropping all entries of one name does not change lookups of other
names. -/
lemma zopen_filter_ne {ar : List (List Nat × List Nat)} {nm k : List Nat}
    (h : k ≠ nm) :
    zopen (ar.filter (fun x => x.1 ≠ nm)) k = zopen ar k := by
  induction ar with
  | nil => rfl
  | cons e t ih =>
    by_cases he : e.1 = nm
    · rw [List.filter_cons_of_neg (by simp [he]), ih, zopen_cons]
      have hek : (e.1 == k) = false := by
        simp [he]
        exact fun hc => h hc.symm
      simp [hek]
    · rw [List.filter_cons_of_pos (by simp [he]), zopen_cons, zopen_cons, ih]

/-- After dropping all entries of a name, looking it up fails. -/
lemma zopen_filter_self {ar : List (List Nat × List Nat)} {nm : List Nat} :
    zopen (ar.filter (fun x => x.1 ≠ nm)) nm = none := by
  refine zopen_eq_none ?_
  intro e he
  have := (List.mem_filter.mp he).2
  simpa using this

/-- With pairwise-distinct names, membership determines lookup. -/
lemma zopen_of_mem_nodup {ar : List (List Nat × List Nat)} {k v : List Nat}
    (hnd : (ar.map (fun e => e.1)).Nodup) (hm : (k, v) ∈ ar) :
    zopen ar k = some v := by
  rcases List.append_of_mem hm with ⟨pre, post, rfl⟩
  have hpost : ∀ e ∈ post, e.1 ≠ k := by
    intro e he
    have := hnd
    simp only [List.map_append, List.map_cons] at this
    have h2 := (List.nodup_append.mp this).2
    rcases List.nodup_cons.mp h2.1 with ⟨hk, _⟩
    intro hek
    exact hk (hek ▸ List.mem_map_of_mem (fun e => e.1) he)
  exact zopen_mid hpost

lemma sameSet_iff {a b : List (List Nat)} :
    sameSet a b = true ↔ (∀ x, x ∈ a ↔ x ∈ b) := by
  simp only [sameSet, Bool.and_eq_true, List.all_eq_true]
  constructor
  · rintro ⟨h1, h2⟩ x
    constructor
    · intro hx; simpa using h1 x hx
    · intro hx; simpa using h2 x hx
  · intro h
    constructor
    · intro x hx; simpa using (h x).mp hx
    · intro x hx; simpa using (h x).mpr hx

/-! ## Hex lemmas -/

lemma hexDigVal_hexDig {d : Nat} (h : d < 16) : hexDigVal (hexDig d) = some d := by
  unfold hexDigVal hexDig
  split_ifs <;> first
  | (simp only [Option.some.injEq]; omega)
  | (exfalso; omega)

lemma hexDig_ge {d : Nat} : 48 ≤ hexDig d := by
  unfold hexDig; split_ifs <;> omega

lemma hexDig_not_space {d : Nat} : isSpaceC (hexDig d) = false := by
  have := hexDig_ge (d := d)
  unfold isSpaceC
  simp only [decide_eq_false_iff_not]
  omega

lemma toHexL_not_space {b : List Nat} : ∀ c ∈ toHexL b, isSpaceC c = false := by
  intro c hc
  simp only [toHexL, List.mem_flatMap, List.mem_cons, List.mem_singleton,
    List.not_mem_nil, or_false] at hc
  rcases hc with ⟨x, _, rfl | rfl⟩ <;> exact hexDig_not_space

lemma hexPairs_toHexL (b : List Nat) :
    hexPairs (toHexL b) = some (b.map (fun x => x % 256)) := by
  induction b with
  | nil => rfl
  | cons x t ih =>
    have h1 : x / 16 % 16 < 16 := Nat.mod_lt _ (by norm_num)
    have h2 : x % 16 < 16 := Nat.mod_lt _ (by norm_num)
    have hx : x / 16 % 16 * 16 + x % 16 = x % 256 := by omega
    simp only [toHexL, List.flatMap_cons, List.cons_append, List.nil_append] at ih ⊢
    simp only [hexPairs, hexDigVal_hexDig h1, hexDigVal_hexDig h2, ih]
    simp [hx]

lemma dropWhile_eq_self_of_none {p : Nat → Bool} {l : List Nat}
    (h : ∀ c ∈ l, p c = false) : l.dropWhile p = l := by
  cases l with
  | nil => rfl
  | cons c t => simp [List.dropWhile_cons, h c (List.mem_cons_self c t)]

lemma strip_of_no_space {s : List Nat} (h : ∀ c ∈ s, isSpaceC c = false) :
    strip s = s := by
  unfold strip
  rw [dropWhile_eq_self_of_none h,
    dropWhile_eq_self_of_none (fun c hc => h c (List.mem_reverse.mp hc)),
    List.reverse_reverse]

lemma map_mod_of_lt {b : List Nat} (h : ∀ x ∈ b, x < 256) :
    b.map (fun x => x % 256) = b := by
  induction b with
  | nil => rfl
  | cons x t ih =>
    have := h x (List.mem_cons_self x t)
    simp [Nat.mod_eq_of_lt this, ih (fun y hy => h y (List.mem_cons_of_mem x hy))]

/-- `bytes.fromhex((hex of s).strip())` recovers `s` for byte-valued `s`:
the signature file written by `compose` decodes back to the signature. -/
lemma hexDecode_strip_toHexL {s : List Nat} (h : ∀ x ∈ s, x < 256) :
    hexDecode (strip (toHexL s)) = some s := by
  rw [strip_of_no_space toHexL_not_space]
  unfold hexDecode
  rw [List.filter_eq_self.mpr (fun c hc => by simp [toHexL_not_space c hc]),
    hexPairs_toHexL, map_mod_of_lt h]

/-! ## Inversion of a successful verification -/

lemma verify_unsafe_false {sha : List Nat → List Nat}
    {vsig : List Nat → List Nat → List Nat → Bool} {pk : List Nat}
    {ar : List (List Nat × List Nat)}
    (h : ar.any (fun e => unsafeName e.1) = true) :
    verify_archive sha vsig pk ar = .ok false := by
  unfold verify_archive
  simp [h]

/-- Everything that must have held when `verify_archive` returned `True`. -/
lemma verify_ok_elim {sha : List Nat → List Nat}
    {vsig : List Nat → List Nat → List Nat → Bool} {pk : List Nat}
    {ar : List (List Nat × List Nat)}
    (h : verify_archive sha vsig pk ar = .ok true) :
    ar.any (fun e => unsafeName e.1) = false ∧
    ∃ hb sb sig hashes,
      zopen ar hyName = some hb ∧ zopen ar hsName = some sb ∧
      hexDecode (strip sb) = some sig ∧
      vsig (verifyKeyBytes sha pk) hb sig = true ∧
      parseHashIndex hb = .ok hashes ∧
      hashes.all (digestOk sha ar) = true ∧
      sameSet (residualNames ar) (hashes.map (fun p => p.1)) = true := by
  unfold verify_archive at h
  split at h
  · simp at h
  next hscan =>
    refine ⟨by simpa using hscan, ?_⟩
    split at h
    next hb sb hzy hzs =>
      split at h
      · simp at h
      next sig hhex =>
        split at h
        · simp at h
        next hv =>
          split at h
          next e hpe => simp at h
          next hashes hp =>
            split at h
            · simp at h
            next hd =>
              split at h
              next hs =>
                exact ⟨hb, sb, sig, hashes, hzy, hzs, hhex, by simpa using hv, hp,
                  by simpa using hd, hs⟩
              · simp at h
    next => simp at h

/-! ## Forward-evaluation helpers -/

lemma digestOk_iff {sha : List Nat → List Nat} {ar : List (List Nat × List Nat)}
    {p : List Nat × List Nat} :
    digestOk sha ar p = true ↔ ∃ d, zopen ar p.1 = some d ∧ toHexL (sha d) = p.2 := by
  unfold digestOk
  cases h : zopen ar p.1 <;> simp [h]

/-- Appending an entry with a different name does not change a lookup. -/
lemma zopen_append_ne {ar : List (List Nat × List Nat)} {e : List Nat × List Nat}
    {k : List Nat} (h : e.1 ≠ k) : zopen (ar ++ [e]) k = zopen ar k := by
  simp only [zopen, List.reverse_append, List.reverse_singleton, List.singleton_append]
  rw [List.find?_cons_of_neg _ (by simp [h])]

/-- Parsing a dumped string-to-string mapping succeeds and returns it. -/
lemma parseHashIndex_ydump (m : List (List Nat × List Nat)) :
    parseHashIndex (ydump m) = .ok m := by
  have hM : (if ytruthy (YVal.ymap (m.map (fun p => (YScalar.ystr p.1, YScalar.ystr p.2)))) then
      YVal.ymap (m.map (fun p => (YScalar.ystr p.1, YScalar.ystr p.2))) else YVal.ymap []) =
      YVal.ymap (m.map (fun p => (YScalar.ystr p.1, YScalar.ystr p.2))) := by
    cases m with
    | nil => rfl
    | cons p t => simp [ytruthy]
  have hall : (m.map (fun q => (YScalar.ystr q.1, YScalar.ystr q.2))).all
      (fun q => q.1.isStr && q.2.isStr) = true := by
    refine List.all_eq_true.mpr ?_
    intro q hq
    rcases List.mem_map.mp hq with ⟨r, _, rfl⟩
    rfl
  have hmap : (m.map (fun q => (YScalar.ystr q.1, YScalar.ystr q.2))).map
      (fun q => (q.1.strVal, q.2.strVal)) = m := by
    rw [List.map_map]
    have hfun : ((fun q : YScalar × YScalar => (q.1.strVal, q.2.strVal)) ∘
        (fun q : List Nat × List Nat => (YScalar.ystr q.1, YScalar.ystr q.2))) =
        (fun q : List Nat × List Nat => (q.1, q.2)) := rfl
    rw [hfun]
    simp
  simp only [parseHashIndex, ydec_ydump, hM, hall]
  simp [hmap]

lemma computeHashesGo_ok {sha : List Nat → List Nat} :
    ∀ {files acc : List (List Nat × List Nat)},
    (∀ f ∈ files, ∀ a ∈ acc, a.1 ≠ f.1) → (files.map (fun e => e.1)).Nodup →
    computeHashesGo sha acc files =
      .ok (acc ++ files.map (fun e => (e.1, toHexL (sha e.2)))) := by
  intro files
  induction files with
  | nil => intro acc _ _; simp [computeHashesGo]
  | cons f t ih =>
    intro acc hacc hnd
    have hnd2 : f.1 ∉ t.map (fun e => e.1) ∧ (t.map (fun e => e.1)).Nodup := by
      simpa using hnd
    have hany : acc.any (fun e => e.1 == f.1) = false := by
      simp only [List.any_eq_false]
      intro a ha
      simpa using hacc f (List.mem_cons_self f t) a ha
    simp only [computeHashesGo, hany, Bool.false_eq_true, if_false]
    rw [ih ?_ hnd2.2]
    · simp
    · intro g hg a hA
      rcases List.mem_append.mp hA with hA | hA
      · exact hacc g (List.mem_cons_of_mem f hg) a hA
      · rcases List.mem_singleton.mp hA with rfl
        intro hc
        exact hnd2.1 (hc ▸ List.mem_map_of_mem (fun e => e.1) hg)

/-- `compute_hashes` on duplicate-free staged files returns the digest
map in staging order. -/
lemma compute_hashes_ok {sha : List Nat → List Nat}
    {files : List (List Nat × List Nat)} (hnd : (files.map (fun e => e.1)).Nodup) :
    compute_hashes sha files = .ok (files.map (fun e => (e.1, toHexL (sha e.2)))) := by
  unfold compute_hashes
  rw [computeHashesGo_ok (by simp) hnd]
  simp

/-- C1.  Round-trip: for every well-formed input — staged names are
pairwise distinct, safe, and reserve neither `hashes.yaml` nor
`hashes.sig`; signatures produced from the seed-derived signing key are
byte-valued and pass verification under the verify key derived from the
same seed — `compose` produces an archive on which `verify_archive`
returns `True`.  The signing step is the modelled one (see `compose`):
as committed, `egg/composer.py` line 18 imports a constant `SIGNING_KEY`
that `egg.hashing` does not define and line 100 passes `sign_hashes` a
keyword `key` it does not accept, so the concrete function can never
produce an archive; this theorem settles the claim for the signing
behaviour the repository's tests and CLI rely on. -/
theorem claimC1_roundtrip
    (sha : List Nat → List Nat) (sign : List Nat → List Nat → List Nat)
    (vsig : List Nat → List Nat → List Nat → Bool)
    (seed pk : List Nat) (inp : StageInput)
    (hcorr : ∀ m, vsig (verifyKeyBytes sha pk) m (sign (signingKeyBytes sha seed) m) = true)
    (hbytes : ∀ m, ∀ x ∈ sign (signingKeyBytes sha seed) m, x < 256)
    (hnd : ((stagedFiles inp).map (fun e => e.1)).Nodup)
    (hsafe : ∀ e ∈ stagedFiles inp, unsafeName e.1 = false)
    (hres : ∀ e ∈ stagedFiles inp, e.1 ≠ hyName ∧ e.1 ≠ hsName) :
    ∃ ar, compose sha sign seed inp = .ok ar ∧
      verify_archive sha vsig pk ar = .ok true := by
  have hch := @compute_hashes_ok sha _ hnd
  have hashesDef : (stagedFiles inp).map (fun e => (e.1, toHexL (sha e.2))) =
      (stagedFiles inp).map (fun e => (e.1, toHexL (sha e.2))) := rfl
  refine ⟨sortByKey ((stagedFiles inp) ++
      [(hyName, ydump (sortByKey ((stagedFiles inp).map (fun e => (e.1, toHexL (sha e.2)))))),
       (hsName, toHexL (sign (signingKeyBytes sha seed)
         (ydump (sortByKey ((stagedFiles inp).map (fun e => (e.1, toHexL (sha e.2)))))))) ]),
    ?_, ?_⟩
  · simp only [compose]
    rw [show ((pathName inp.manifestPath, inp.manifestBytes) :: inp.sources) =
      stagedFiles inp from rfl, hch]
    rfl
  · -- abbreviations
    generalize hHB : ydump (sortByKey ((stagedFiles inp).map
      (fun e => (e.1, toHexL (sha e.2))))) = hb
    set hashes := (stagedFiles inp).map (fun e => (e.1, toHexL (sha e.2))) with hhashes
    set sigB := sign (signingKeyBytes sha seed) hb with hsigB
    set entries := stagedFiles inp ++ [(hyName, hb), (hsName, toHexL sigB)] with hent
    have keysE : entries.map (fun e => e.1) =
        (stagedFiles inp).map (fun e => e.1) ++ [hyName, hsName] := by
      simp [hent]
    have hyns : hyName ≠ hsName := by decide
    have hndE : (entries.map (fun e => e.1)).Nodup := by
      rw [keysE, List.nodup_append]
      refine ⟨hnd, by simp [hyns], ?_⟩
      intro x hx
      rcases List.mem_map.mp hx with ⟨e, he, rfl⟩
      simp [(hres e he).1, (hres e he).2]
    have hperm := sortByKey_perm entries
    have hndAr : ((sortByKey entries).map (fun e => e.1)).Nodup :=
      ((hperm.map _).nodup_iff).mpr hndE
    have hscan : (sortByKey entries).any (fun e => unsafeName e.1) = false := by
      rw [List.any_eq_false]
      intro e he
      have he2 := hperm.mem_iff.mp he
      rcases List.mem_append.mp he2 with h | h
      · simp [hsafe e h]
      · rcases List.mem_cons.mp h with rfl | h
        · exact (by decide : ¬ unsafeName hyName = true)
        · rcases List.mem_singleton.mp h with rfl
          exact (by decide : ¬ unsafeName hsName = true)
    have hzy : zopen (sortByKey entries) hyName = some hb := by
      refine zopen_of_mem_nodup hndAr (hperm.mem_iff.mpr ?_)
      exact List.mem_append_right _ (by simp)
    have hzs : zopen (sortByKey entries) hsName = some (toHexL sigB) := by
      refine zopen_of_mem_nodup hndAr (hperm.mem_iff.mpr ?_)
      exact List.mem_append_right _ (by simp)
    have hhex : hexDecode (strip (toHexL sigB)) = some sigB :=
      hexDecode_strip_toHexL (hbytes hb)
    have hparse : parseHashIndex hb = .ok (sortByKey hashes) := by
      rw [← hHB]
      exact parseHashIndex_ydump _
    have hdig : (sortByKey hashes).all (digestOk sha (sortByKey entries)) = true := by
      rw [List.all_eq_true]
      intro p hp
      have hp2 : p ∈ hashes := (sortByKey_perm hashes).mem_iff.mp hp
      rcases List.mem_map.mp hp2 with ⟨e, he, rfl⟩
      refine digestOk_iff.mpr ⟨e.2, ?_, rfl⟩
      have hmem : (e.1, e.2) ∈ entries := by
        refine List.mem_append_left _ ?_
        simpa using he
      exact zopen_of_mem_nodup hndAr (hperm.mem_iff.mpr hmem)
    have hclose : sameSet (residualNames (sortByKey entries))
        ((sortByKey hashes).map (fun p => p.1)) = true := by
      rw [sameSet_iff]
      intro x
      have hkeysH : x ∈ (sortByKey hashes).map (fun p => p.1) ↔
          x ∈ (stagedFiles inp).map (fun e => e.1) := by
        rw [((sortByKey_perm hashes).map _).mem_iff]
        simp [hhashes]
      constructor
      · intro hx
        rcases List.mem_filter.mp hx with ⟨hx1, hx2⟩
        have hx3 : x ∈ entries.map (fun e => e.1) := ((hperm.map _).mem_iff).mp hx1
        rw [keysE] at hx3
        rcases List.mem_append.mp hx3 with h | h
        · exact hkeysH.mpr h
        · exfalso
          simp only [decide_eq_true_eq] at hx2
          rcases List.mem_cons.mp h with rfl | h
          · exact hx2.1 rfl
          · rcases List.mem_singleton.mp h with rfl
            exact hx2.2 rfl
      · intro hx
        have hxc := hkeysH.mp hx
        refine List.mem_filter.mpr ⟨?_, ?_⟩
        · refine ((hperm.map _).mem_iff).mpr ?_
          rw [keysE]
          exact List.mem_append_left _ hxc
        · rcases List.mem_map.mp hxc with ⟨e, he, rfl⟩
          simp [(hres e he).1, (hres e he).2]
    have hvs : vsig (verifyKeyBytes sha pk) hb sigB = true := by
      rw [hsigB]
      exact hcorr hb
    unfold verify_archive
    rw [hscan]
    simp only [Bool.false_eq_true, if_false]
    rw [hzy, hzs]
    simp only []
    rw [hhex]
    simp only [hvs, not_true, if_false]
    rw [hparse]
    simp only [hdig, not_true, if_false, hclose, if_true]

/-- Witness for C1: the round-trip theorem applied at a concrete input
with the toy crypto instances. -/
theorem claimC1_roundtrip_witness :
    ∃ ar, compose sha0 sign0 wSeed wInp = .ok ar ∧
      verify_archive sha0 vsig0 wSeed ar = .ok true := by
  refine claimC1_roundtrip sha0 sign0 vsig0 wSeed wSeed wInp ?_ ?_ ?_ ?_ ?_
  · intro m
    simp [vsig0, sign0, verifyKeyBytes, signingKeyBytes, wSeed]
  · intro m x hx
    simp only [sign0, List.mem_map] at hx
    rcases hx with ⟨y, _, rfl⟩
    omega
  · decide
  · decide
  · decide

/-- C5.  Byte-determinism of composition: `compose` is a pure function of
the staged bytes — two runs on the same input agree definitionally — and
its output is independent of the order in which the staged files are
enumerated: any two inputs staging the same files (as a multiset, with
distinct relative paths) produce the same archive entry list.  The ZIP
container bytes are a fixed serialization of this entry list (fixed
timestamp `1980-01-01`, DEFLATE, no OS attributes), so equal entry lists
give byte-identical archives. -/
theorem claimC5_determinism
    (sha : List Nat → List Nat) (sign : List Nat → List Nat → List Nat)
    (seed : List Nat) (inp1 inp2 : StageInput)
    (hperm : List.Perm (stagedFiles inp1) (stagedFiles inp2))
    (hnd : ((stagedFiles inp1).map (fun e => e.1)).Nodup)
    (hres : ∀ e ∈ stagedFiles inp1, e.1 ≠ hyName ∧ e.1 ≠ hsName) :
    compose sha sign seed inp1 = compose sha sign seed inp2 := by
  have hnd2 : ((stagedFiles inp2).map (fun e => e.1)).Nodup :=
    ((hperm.map _).nodup_iff).mp hnd
  have hch1 := @compute_hashes_ok sha _ hnd
  have hch2 := @compute_hashes_ok sha _ hnd2
  have hpermH : List.Perm ((stagedFiles inp1).map (fun e => (e.1, toHexL (sha e.2))))
      ((stagedFiles inp2).map (fun e => (e.1, toHexL (sha e.2)))) := hperm.map _
  have hndH : (((stagedFiles inp1).map (fun e => (e.1, toHexL (sha e.2)))).map
      (fun e => e.1)).Nodup := by
    rw [List.map_map]
    simpa using hnd
  have hsortH : sortByKey ((stagedFiles inp1).map (fun e => (e.1, toHexL (sha e.2)))) =
      sortByKey ((stagedFiles inp2).map (fun e => (e.1, toHexL (sha e.2)))) :=
    sortByKey_eq_of_perm hpermH hndH
  simp only [compose]
  rw [show ((pathName inp1.manifestPath, inp1.manifestBytes) :: inp1.sources) =
    stagedFiles inp1 from rfl,
    show ((pathName inp2.manifestPath, inp2.manifestBytes) :: inp2.sources) =
    stagedFiles inp2 from rfl, hch1, hch2]
  simp only [hsortH]
  congr 1
  apply sortByKey_eq_of_perm
  · exact hperm.append_right _
  · simp only [List.map_append]
    rw [List.nodup_append]
    refine ⟨hnd, by simp [(by decide : hyName ≠ hsName)], ?_⟩
    intro x hx
    rcases List.mem_map.mp hx with ⟨e, he, rfl⟩
    simp [(hres e he).1, (hres e he).2]

/-- Witness for C5: two concrete enumeration orders of the same staged
files compose to the same archive. -/
theorem claimC5_determinism_witness :
    compose sha0 sign0 wSeed wInpB = compose sha0 sign0 wSeed wInpC :=
  claimC5_determinism sha0 sign0 wSeed wInpB wInpC
    (List.Perm.cons _ (List.Perm.swap _ _ _)) (by decide) (by decide)

/-- C3.  Verification closure: an archive verifies only if its entry
names minus `hashes.yaml`/`hashes.sig` are set-equal to the keys of its
parsed hash index; consequently appending any entry under a fresh
non-metadata name breaks verification, and so does removing the entries
of any listed name. -/
theorem claimC3_closure (sha : List Nat → List Nat)
    (vsig : List Nat → List Nat → List Nat → Bool) (pk : List Nat)
    (ar : List (List Nat × List Nat))
    (hok : verify_archive sha vsig pk ar = .ok true) :
    ∃ hashes, archiveIndex ar = some hashes ∧
      sameSet (residualNames ar) (hashes.map (fun p => p.1)) = true ∧
      (∀ e : List Nat × List Nat, e.1 ∉ ar.map (fun x => x.1) → e.1 ≠ hyName →
        e.1 ≠ hsName → verify_archive sha vsig pk (ar ++ [e]) ≠ .ok true) ∧
      (∀ nm ∈ hashes.map (fun p => p.1),
        verify_archive sha vsig pk (ar.filter (fun x => x.1 ≠ nm)) ≠ .ok true) := by
  rcases verify_ok_elim hok with ⟨hscan, hb, sb, sig, hashes, hzy, hzs, hhex, hvs, hp, hd, hc⟩
  have hidx : archiveIndex ar = some hashes := by
    simp only [archiveIndex, hzy, hp]
  refine ⟨hashes, hidx, hc, ?_, ?_⟩
  · -- appending a fresh entry
    intro e hfresh hey hes hok2
    rcases verify_ok_elim hok2 with ⟨_, hb2, sb2, sig2, hashes2, hzy2, hzs2, _, _, hp2, _, hc2⟩
    rw [zopen_append_ne hey, hzy] at hzy2
    cases hzy2
    rw [hp] at hp2
    cases hp2
    -- e.1 is an archive name of the extended archive but not a key
    have hmem : e.1 ∈ residualNames (ar ++ [e]) := by
      refine List.mem_filter.mpr ⟨?_, ?_⟩
      · simp
      · simp [hey, hes]
    have hkey : e.1 ∈ hashes.map (fun p => p.1) := (sameSet_iff.mp hc2 e.1).mp hmem
    have hold : e.1 ∈ residualNames ar := (sameSet_iff.mp hc e.1).mpr hkey
    exact hfresh (List.mem_of_mem_filter hold)
  · -- removing a listed name
    intro nm hnm hok2
    have hnmNames : nm ∈ residualNames ar := (sameSet_iff.mp hc nm).mpr hnm
    have hney : nm ≠ hyName := by
      have := (List.mem_filter.mp hnmNames).2
      simp only [decide_eq_true_eq] at this
      exact this.1
    have hnes : nm ≠ hsName := by
      have := (List.mem_filter.mp hnmNames).2
      simp only [decide_eq_true_eq] at this
      exact this.2
    rcases verify_ok_elim hok2 with ⟨_, hb2, sb2, sig2, hashes2, hzy2, hzs2, _, _, hp2, hd2, _⟩
    rw [zopen_filter_ne hney.symm, hzy] at hzy2
    cases hzy2
    rw [hp] at hp2
    cases hp2
    rcases List.mem_map.mp hnm with ⟨p, hpmem, rfl⟩
    have := List.all_eq_true.mp hd2 p hpmem
    rcases digestOk_iff.mp this with ⟨d, hzd, _⟩
    rw [zopen_filter_self] at hzd
    cases hzd

/-- Witness for C3: the closure theorem applied to the concrete
verifying archive. -/
theorem claimC3_closure_witness :
    ∃ hashes, archiveIndex wAr = some hashes ∧
      sameSet (residualNames wAr) (hashes.map (fun p => p.1)) = true ∧
      (∀ e : List Nat × List Nat, e.1 ∉ wAr.map (fun x => x.1) → e.1 ≠ hyName →
        e.1 ≠ hsName → verify_archive sha0 vsig0 wSeed (wAr ++ [e]) ≠ .ok true) ∧
      (∀ nm ∈ hashes.map (fun p => p.1),
        verify_archive sha0 vsig0 wSeed (wAr.filter (fun x => x.1 ≠ nm)) ≠ .ok true) :=
  claimC3_closure sha0 vsig0 wSeed wAr (by decide)

/-- C2 counterexample: the tamper-detection claim fails on archives with
duplicate entry names.  `cexC2ar` stores the listed entry `a.py` twice;
verification returns OK.  Mutating the stored bytes of the first `a.py`
entry — an entry whose name is listed in the hash index — to different
bytes with a different SHA-256 digest still verifies OK, because
`zipfile`'s `NameToInfo` lookup reads the later duplicate, so the
mutated bytes are never checked. -/
theorem claimC2_counterexample :
    verify_archive sha0 vsig0 wSeed cexC2ar = .ok true ∧
    archiveIndex cexC2ar = some [(strN "a.py", toHexL (sha0 (strN "print")))] ∧
    strN "tampered" ≠ strN "print" ∧
    toHexL (sha0 (strN "tampered")) ≠ toHexL (sha0 (strN "print")) ∧
    verify_archive sha0 vsig0 wSeed
      (cexC2ar.set 0 (strN "a.py", strN "tampered")) = .ok true := by
  decide

/-- C2 amended: on an archive with pairwise-distinct entry names that
verifies, replacing the stored bytes of an entry listed in the hash
index (any non-metadata entry) with bytes of a different SHA-256 digest
makes verification stop returning OK. -/
theorem claimC2_tamper (sha : List Nat → List Nat)
    (vsig : List Nat → List Nat → List Nat → Bool) (pk : List Nat)
    (pre post : List (List Nat × List Nat)) (nm b b2 : List Nat)
    (hnd : ((pre ++ (nm, b) :: post).map (fun e => e.1)).Nodup)
    (hok : verify_archive sha vsig pk (pre ++ (nm, b) :: post) = .ok true)
    (hny : nm ≠ hyName) (hns : nm ≠ hsName)
    (hdig : toHexL (sha b2) ≠ toHexL (sha b)) :
    verify_archive sha vsig pk (pre ++ (nm, b2) :: post) ≠ .ok true := by
  intro hok2
  rcases verify_ok_elim hok with ⟨_, hb, sb, sig, hashes, hzy, hzs, _, _, hp, hd, hc⟩
  rcases verify_ok_elim hok2 with ⟨_, hb2, sb2, sig2, hashes2, hzy2, hzs2, _, _, hp2, hd2, _⟩
  have hnd' := hnd
  simp only [List.map_append, List.map_cons] at hnd'
  have hpostnd := (List.nodup_append.mp hnd').2.1
  have hnin : nm ∉ post.map (fun e => e.1) := (List.nodup_cons.mp hpostnd).1
  have hmid : ∀ e ∈ post, e.1 ≠ nm := by
    intro e he hc2
    exact hnin (hc2 ▸ List.mem_map_of_mem (fun e => e.1) he)
  rw [zopen_other hny.symm, hzy] at hzy2
  cases hzy2
  rw [hp] at hp2
  cases hp2
  have hnmres : nm ∈ residualNames (pre ++ (nm, b) :: post) := by
    refine List.mem_filter.mpr ⟨?_, ?_⟩
    · simp
    · simp [hny, hns]
  have hkey : nm ∈ hashes.map (fun p => p.1) := (sameSet_iff.mp hc nm).mp hnmres
  rcases List.mem_map.mp hkey with ⟨p, hpmem, hp1⟩
  have hd1 := List.all_eq_true.mp hd p hpmem
  rcases digestOk_iff.mp hd1 with ⟨d, hzd, hdp⟩
  rw [hp1, zopen_mid hmid] at hzd
  cases hzd
  have hd2p := List.all_eq_true.mp hd2 p hpmem
  rcases digestOk_iff.mp hd2p with ⟨d2, hzd2, hdp2⟩
  rw [hp1, zopen_mid hmid] at hzd2
  cases hzd2
  exact hdig (hdp2.trans hdp.symm)

/-- Witness for C2: the amended tamper theorem applied to the concrete
verifying archive with a concrete digest-changing mutation. -/
theorem claimC2_tamper_witness :
    verify_archive sha0 vsig0 wSeed
      ([] ++ (strN "a.py", strN "tampered") :: wArMeta) ≠ .ok true :=
  claimC2_tamper sha0 vsig0 wSeed [] wArMeta (strN "a.py") (strN "print")
    (strN "tampered") (by decide) (by decide) (by decide) (by decide) (by decide)

/-- C4 counterexample: the scan `verify_archive` performs accepts entry
names the claim's four-condition predicate rejects.  `c:/x` carries a
Windows drive prefix — unsafe per the claim — yet an archive containing
it passes the scan and verifies OK (so does the empty name).  The code
checks only POSIX-absoluteness and `..` parts. -/
theorem claimC4_counterexample :
    specSafeArchivePath (strN "c:/x") = false ∧
    strN "c:/x" ∈ cexC4ar.map (fun e => e.1) ∧
    verify_archive sha0 vsig0 wSeed cexC4ar = .ok true := by
  decide

/-- C4 amended: the scan rejects exactly POSIX-absolute names and names
with a `..` segment; every archive containing such an entry name fails
verification (returns False) before any entry is read.  Empty names and
Windows drive prefixes are not rejected. -/
theorem claimC4_path_scan (sha : List Nat → List Nat)
    (vsig : List Nat → List Nat → List Nat → Bool) (pk : List Nat)
    (ar : List (List Nat × List Nat)) (nm : List Nat)
    (hmem : nm ∈ ar.map (fun e => e.1))
    (hbad : posixIsAbs nm = true ∨ (posixParts nm).contains (strN "..") = true) :
    verify_archive sha vsig pk ar = .ok false := by
  refine verify_unsafe_false ?_
  rw [List.any_eq_true]
  rcases List.mem_map.mp hmem with ⟨e, he, rfl⟩
  refine ⟨e, he, ?_⟩
  unfold unsafeName
  rcases hbad with h | h
  · simp [h]
  · simp only [Bool.or_eq_true]
    refine Or.inr ?_
    simpa using h

/-- Witness for C4: a concrete archive with a `..` entry name fails
verification. -/
theorem claimC4_path_scan_witness :
    verify_archive sha0 vsig0 wSeed [(strN "../evil.py", strN "x")] = .ok false :=
  claimC4_path_scan sha0 vsig0 wSeed [(strN "../evil.py", strN "x")]
    (strN "../evil.py") (by decide) (by decide)

/-- C6.  The manifest is staged under the input manifest's own filename,
not under the fixed name `manifest.yaml`: composing a manifest located at
`/work/custom.yaml` yields an archive whose entries are exactly
`custom.yaml`, `hashes.sig`, `hashes.yaml`, `hello.py` — there is no
`manifest.yaml` entry.  (`egg/composer.py` line 79 stages at
`tmpdir / manifest_path.name`; the repository's own tests,
`tests/test_examples.py` lines 48–49 and 104–106, assert the fixed name,
so this is a bug in the committed composer.) -/
theorem claimC6_manifest_entry_name :
    (compose sha0 sign0 wSeed wInp).map (fun ar => ar.map (fun e => e.1)) =
      .ok [strN "custom.yaml", strN "hashes.sig", strN "hashes.yaml", strN "hello.py"] := by
  decide

/-- C7 counterexample: `load_manifest` accepts a cell mapping carrying
an extra key (`extra: x`) beyond `language` and `source` — the cells
loop (`egg/manifest.py` lines 134–144) checks presence and types of the
two required keys but never rejects additional ones.  The claim says
such a manifest is rejected. -/
theorem claimC7_counterexample :
    load_manifest [strN "home"] cexC7data =
      .ok { name := strN "Demo", description := strN "d",
            cells := [{ language := strN "python", source := strN "a.py" }],
            permissions := none, dependencies := none,
            author := none, created := none, license := none } := by
  decide

/-- C7 amended: each element of `cells` must be a mapping containing
`language` and `source` with string values (the source normalizing
inside the manifest directory); extra keys are accepted and ignored.
Part 1 reduces `load_manifest` on a minimal root to the cells loop;
parts 2–4 show non-mappings, missing keys and non-string values are
rejected; part 5 shows a well-formed cell with arbitrary extra pairs is
accepted. -/
theorem claimC7_cell_schema :
    (∀ (base : List (List Nat)) (nm ds : List Nat) (cellsData : List MV),
      load_manifest base (.mmap
        [(.mstr (strN "name"), .mstr nm), (.mstr (strN "description"), .mstr ds),
         (.mstr (strN "cells"), .mlist cellsData)]) =
      (validateCells base cellsData).map (fun cs =>
        { name := nm, description := ds, cells := cs, permissions := none,
          dependencies := none, author := none, created := none, license := none })) ∧
    (∀ (base : List (List Nat)) (v : MV), (∀ m, v ≠ .mmap m) →
      validateCell base v = .error (.valueError "Cell must be a mapping")) ∧
    (∀ (base : List (List Nat)) (m : List (MV × MV)),
      (mget m (strN "language") = none ∨ mget m (strN "source") = none) →
      validateCell base (.mmap m) =
        .error (.valueError "Each cell requires language and source")) ∧
    (∀ (base : List (List Nat)) (m : List (MV × MV)) (lv sv : MV),
      mget m (strN "language") = some lv → mget m (strN "source") = some sv →
      (∀ s, lv ≠ .mstr s) →
      validateCell base (.mmap m) =
        .error (.valueError "Cell language must be a string")) ∧
    (∀ (base : List (List Nat)) (lang src : List Nat) (extras : List (MV × MV)),
      validateCell base (.mmap
        ([(.mstr (strN "language"), .mstr lang),
          (.mstr (strN "source"), .mstr src)] ++ extras)) =
      (normalize_source base src).map
        (fun n => { language := lang, source := n })) := by
  refine ⟨?_, ?_, ?_, ?_, ?_⟩
  · intro base nm ds cellsData
    have hred : load_manifest base (.mmap
        [(.mstr (strN "name"), .mstr nm), (.mstr (strN "description"), .mstr ds),
         (.mstr (strN "cells"), .mlist cellsData)]) =
      (match validateCells base cellsData with
       | .error e => .error e
       | .ok cs => .ok (Manifest.mk nm ds cs none none none none none)) := rfl
    rw [hred]
    cases validateCells base cellsData <;> rfl
  · intro base v hnm
    cases v with
    | mmap m => exact absurd rfl (hnm m)
    | mstr s => rfl
    | mbool b => rfl
    | mint n => rfl
    | mnull => rfl
    | mlist l => rfl
  · intro base m h
    cases hl : mget m (strN "language") with
    | none => simp [validateCell, hl]
    | some lv =>
      rcases h with h | h
      · rw [hl] at h
        cases h
      · simp [validateCell, hl, h]
  · intro base m lv sv hl hs hnm
    cases lv with
    | mstr s => exact absurd rfl (hnm s)
    | mbool b => simp only [validateCell, hl, hs]
    | mint n => simp only [validateCell, hl, hs]
    | mnull => simp only [validateCell, hl, hs]
    | mlist l => simp only [validateCell, hl, hs]
    | mmap mm => simp only [validateCell, hl, hs]
  · intro base lang src extras
    have e1 : (MV.mstr (strN "language") == MV.mstr (strN "language")) = true := by decide
    have e2 : (MV.mstr (strN "language") == MV.mstr (strN "source")) = false := by decide
    have e3 : (MV.mstr (strN "source") == MV.mstr (strN "source")) = true := by decide
    have hl : mget ([(MV.mstr (strN "language"), MV.mstr lang),
        (MV.mstr (strN "source"), MV.mstr src)] ++ extras) (strN "language") =
        some (.mstr lang) := by
      unfold mget
      rw [List.cons_append, List.find?_cons_of_pos _ (by simp [e1])]
      rfl
    have hs : mget ([(MV.mstr (strN "language"), MV.mstr lang),
        (MV.mstr (strN "source"), MV.mstr src)] ++ extras) (strN "source") =
        some (.mstr src) := by
      unfold mget
      rw [List.cons_append, List.find?_cons_of_neg _ (by simp [e2]), List.cons_append,
        List.find?_cons_of_pos _ (by simp [e3])]
      rfl
    simp only [validateCell, hl, hs]

/-- Witness for C7's amended theorem at concrete inputs. -/
theorem claimC7_cell_schema_witness :
    validateCell [strN "home"] (.mmap
      ([(.mstr (strN "language"), .mstr (strN "python")),
        (.mstr (strN "source"), .mstr (strN "a.py"))] ++
       [(.mstr (strN "extra"), .mstr (strN "x"))])) =
    (normalize_source [strN "home"] (strN "a.py")).map
      (fun n => { language := strN "python", source := n }) :=
  claimC7_cell_schema.2.2.2.2 [strN "home"] (strN "python") (strN "a.py")
    [(.mstr (strN "extra"), .mstr (strN "x"))]

/-- C8 counterexample: the temporary file is `dest.with_suffix(".tmp")`,
which *replaces* the final suffix, not `<dest>.tmp`.  For the registry
destination `python_3.11.img` the temporary is `python_3.11.tmp`: a
failing download unlinks `python_3.11.tmp` and leaves
`python_3.11.img.tmp` — the name the claim says is used — untouched. -/
theorem claimC8_counterexample :
    withSuffixTmp (strN "python_3.11.img") = strN "python_3.11.tmp" ∧
    strN "python_3.11.tmp" ≠ strN "python_3.11.img" ++ strN ".tmp" ∧
    (_download_container sha0 (strN "python_3.11.img") .fail none cexC8fs).2
      (strN "python_3.11.tmp") = none ∧
    (_download_container sha0 (strN "python_3.11.img") .fail none cexC8fs).2
      (strN "python_3.11.img.tmp") = some (strN "Y") := by
  decide

/-- C8 amended: with the temporary named `dest.with_suffix(".tmp")`, the
download is atomic: when the transfer succeeds with a consistent
`Content-Length` and a matching digest, `dest` holds the body and the
temporary is gone; whenever the function reports a failure, the
temporary is gone and `dest` is unchanged; network failure, truncation
and digest mismatch produce their respective error kinds. -/
theorem claimC8_atomic (sha : List Nat → List Nat) (dest : List Nat)
    (resp : NetResp) (expected : Option (List Nat)) (fs : Fs)
    (hnc : (match fs dest, expected with
            | some cached, some e => toHexL (sha cached) == e
            | _, _ => false) = false)
    (htd : withSuffixTmp dest ≠ dest) :
    (∀ contentLength body, resp = .resp contentLength body →
      (∀ t, contentLength = some t → t = body.length) →
      (∀ e, expected = some e → toHexL (sha body) = e) →
      (_download_container sha dest resp expected fs).1 = none ∧
      (_download_container sha dest resp expected fs).2 dest = some body ∧
      (_download_container sha dest resp expected fs).2 (withSuffixTmp dest) = none) ∧
    (∀ err, (_download_container sha dest resp expected fs).1 = some err →
      (_download_container sha dest resp expected fs).2 (withSuffixTmp dest) = none ∧
      (_download_container sha dest resp expected fs).2 dest = fs dest) ∧
    (resp = .fail → (_download_container sha dest resp expected fs).1 = some .fetchFail) ∧
    (∀ contentLength body t, resp = .resp contentLength body → contentLength = some t →
      t ≠ body.length →
      (_download_container sha dest resp expected fs).1 = some .truncated) ∧
    (∀ contentLength body e, resp = .resp contentLength body →
      (∀ t, contentLength = some t → t = body.length) → expected = some e →
      toHexL (sha body) ≠ e →
      (_download_container sha dest resp expected fs).1 = some .checksum) := by
  refine ⟨?_, ?_, ?_, ?_, ?_⟩
  · intro contentLength body hresp hlen hdig
    subst hresp
    cases contentLength with
    | none =>
      cases expected with
      | none => simp [_download_container, hnc, fset, ferase, htd, Ne.symm htd]
      | some e =>
        have hd := hdig e rfl
        simp [_download_container, hnc, hd, fset, ferase, htd, Ne.symm htd]
    | some t =>
      have hl := hlen t rfl
      subst hl
      cases expected with
      | none => simp [_download_container, hnc, fset, ferase, htd, Ne.symm htd]
      | some e =>
        have hd := hdig e rfl
        simp [_download_container, hnc, hd, fset, ferase, htd, Ne.symm htd]
  · intro err herr
    cases resp with
    | fail =>
      refine ⟨?_, ?_⟩ <;> simp [_download_container, hnc, ferase, htd, Ne.symm htd]
    | resp contentLength body =>
      cases contentLength with
      | none =>
        cases expected with
        | none => simp [_download_container, hnc, fset, ferase] at herr
        | some e =>
          by_cases hd : toHexL (sha body) = e
          · simp [_download_container, hnc, hd, fset, ferase] at herr
          · have hd2 : (toHexL (sha body) == e) = false := by simpa using hd
            refine ⟨?_, ?_⟩ <;>
              simp [_download_container, hnc, hd2, fset, ferase, htd, Ne.symm htd]
      | some t =>
        by_cases hl : t = body.length
        · subst hl
          cases expected with
          | none => simp [_download_container, hnc, fset, ferase] at herr
          | some e =>
            by_cases hd : toHexL (sha body) = e
            · simp [_download_container, hnc, hd, fset, ferase] at herr
            · have hd2 : (toHexL (sha body) == e) = false := by simpa using hd
              refine ⟨?_, ?_⟩ <;>
                simp [_download_container, hnc, hd2, fset, ferase, htd, Ne.symm htd]
        · have hl2 : (t == body.length) = false := by simpa using hl
          refine ⟨?_, ?_⟩ <;>
            simp [_download_container, hnc, hl2, fset, ferase, htd, Ne.symm htd]
  · intro hresp
    subst hresp
    simp [_download_container, hnc]
  · intro contentLength body t hresp hcl hne
    subst hresp
    subst hcl
    have hl2 : (t == body.length) = false := by simpa using hne
    simp [_download_container, hnc, hl2]
  · intro contentLength body e hresp hlen hexp hne
    subst hresp
    subst hexp
    have hd2 : (toHexL (sha body) == e) = false := by simpa using hne
    cases contentLength with
    | none => simp [_download_container, hnc, hd2]
    | some t =>
      have hl := hlen t rfl
      subst hl
      simp [_download_container, hnc, hd2]

/-- Witness for C8: the atomic-download theorem at a concrete successful
fetch. -/
theorem claimC8_atomic_witness :
    (_download_container sha0 (strN "r.img")
        (.resp (some 2) (strN "RR")) (some (toHexL (sha0 (strN "RR"))))
        (fun _ => none)).1 = none ∧
    (_download_container sha0 (strN "r.img")
        (.resp (some 2) (strN "RR")) (some (toHexL (sha0 (strN "RR"))))
        (fun _ => none)).2 (strN "r.img") = some (strN "RR") ∧
    (_download_container sha0 (strN "r.img")
        (.resp (some 2) (strN "RR")) (some (toHexL (sha0 (strN "RR"))))
        (fun _ => none)).2 (withSuffixTmp (strN "r.img")) = none :=
  (claimC8_atomic sha0 (strN "r.img") (.resp (some 2) (strN "RR"))
      (some (toHexL (sha0 (strN "RR")))) (fun _ => none) (by rfl) (by decide)).1
    (some 2) (strN "RR") rfl
    (fun t ht => by cases ht; rfl)
    (fun e he => by cases he; rfl)

lemma lookupAssoc_cons_self (p : List Nat × List Nat) (t : List (List Nat × List Nat))
    (k : List Nat) (h : p.1 = k) : lookupAssoc (p :: t) k = some p.2 := by
  unfold lookupAssoc
  rw [List.find?_cons_of_pos _ (by simp [h])]
  rfl

lemma lookupAssoc_cons_other (p : List Nat × List Nat) (t : List (List Nat × List Nat))
    (k : List Nat) (h : p.1 ≠ k) : lookupAssoc (p :: t) k = lookupAssoc t k := by
  unfold lookupAssoc
  rw [List.find?_cons_of_neg _ (by simp [h])]

lemma lookupAssoc_eq_none_iff (l : List (List Nat × List Nat)) (k : List Nat) :
    lookupAssoc l k = none ↔ ∀ p ∈ l, p.1 ≠ k := by
  simp [lookupAssoc, List.find?_eq_none]

lemma lookupAssoc_mem {l : List (List Nat × List Nat)} {k v : List Nat}
    (h : lookupAssoc l k = some v) : (k, v) ∈ l := by
  unfold lookupAssoc at h
  cases hf : l.find? (fun p => p.1 == k) with
  | none => rw [hf] at h; exact absurd h (by simp)
  | some p =>
    rw [hf] at h
    have hm : p ∈ l := List.mem_of_find?_eq_some hf
    have h1 : p.1 = k := by simpa using List.find?_some hf
    have h2 : p.2 = v := by simpa using h
    have h3 : p = (k, v) := by
      cases p
      simp_all
    rwa [h3] at hm

lemma lookupAssoc_of_mem_nodup {l : List (List Nat × List Nat)} {k v : List Nat}
    (hnd : (l.map (fun p => p.1)).Nodup) (hm : (k, v) ∈ l) :
    lookupAssoc l k = some v := by
  induction l with
  | nil => cases hm
  | cons p t ih =>
    have hnd2 : p.1 ∉ t.map (fun p => p.1) ∧ (t.map (fun p => p.1)).Nodup := by
      rw [List.map_cons] at hnd
      exact List.nodup_cons.mp hnd
    rcases List.mem_cons.mp hm with he | ht
    · rw [← he]
      exact lookupAssoc_cons_self _ _ _ rfl
    · have hp : p.1 ≠ k := by
        intro hq
        exact hnd2.1 (hq ▸ List.mem_map.mpr ⟨(k, v), ht, rfl⟩)
      rw [lookupAssoc_cons_other _ _ _ hp]
      exact ih hnd2.2 ht

lemma lookupAssoc_perm {l1 l2 : List (List Nat × List Nat)} (hp : List.Perm l1 l2)
    (hnd : (l1.map (fun p => p.1)).Nodup) (k : List Nat) :
    lookupAssoc l1 k = lookupAssoc l2 k := by
  have hnd2 : (l2.map (fun p => p.1)).Nodup := ((hp.map _).nodup hnd)
  cases hlk : lookupAssoc l1 k with
  | some v =>
    exact (lookupAssoc_of_mem_nodup hnd2 (hp.mem_iff.mp (lookupAssoc_mem hlk))).symm
  | none =>
    rw [lookupAssoc_eq_none_iff] at hlk
    exact ((lookupAssoc_eq_none_iff l2 k).mpr
      (fun p hpm => hlk p (hp.mem_iff.mpr hpm))).symm

lemma lookupAssoc_append_none {l1 : List (List Nat × List Nat)}
    (l2 : List (List Nat × List Nat)) {k : List Nat}
    (h : lookupAssoc l1 k = none) : lookupAssoc (l1 ++ l2) k = lookupAssoc l2 k := by
  induction l1 with
  | nil => rfl
  | cons p t ih =>
    by_cases hp : p.1 = k
    · rw [lookupAssoc_cons_self _ _ _ hp] at h
      exact absurd h (by simp)
    · rw [lookupAssoc_cons_other _ _ _ hp] at h
      rw [List.cons_append, lookupAssoc_cons_other _ _ _ hp]
      exact ih h

lemma lookupAssoc_map_update_self (l : List (List Nat × List Nat)) (k v : List Nat)
    (hany : l.any (fun p => p.1 == k) = true) :
    lookupAssoc (l.map (fun p => if p.1 == k then (k, v) else p)) k = some v := by
  induction l with
  | nil => simp at hany
  | cons p t ih =>
    rw [List.map_cons]
    by_cases hp : p.1 = k
    · rw [if_pos (by simp [hp])]
      exact lookupAssoc_cons_self _ _ _ rfl
    · rw [if_neg (by simp [hp]), lookupAssoc_cons_other _ _ _ hp]
      apply ih
      rcases List.any_eq_true.mp hany with ⟨q, hq, hqk⟩
      rcases List.mem_cons.mp hq with he | hqt
      · cases he
        exact absurd (by simpa using hqk) hp
      · exact List.any_eq_true.mpr ⟨q, hqt, hqk⟩

lemma lookupAssoc_map_update_other (l : List (List Nat × List Nat)) (k v k2 : List Nat)
    (h : k2 ≠ k) :
    lookupAssoc (l.map (fun p => if p.1 == k then (k, v) else p)) k2 = lookupAssoc l k2 := by
  induction l with
  | nil => rfl
  | cons p t ih =>
    rw [List.map_cons]
    by_cases hp : p.1 = k
    · rw [if_pos (by simp [hp])]
      rw [lookupAssoc_cons_other ((k, v)) _ _ (Ne.symm h)]
      rw [lookupAssoc_cons_other _ _ _ (by rw [hp]; exact Ne.symm h)]
      exact ih
    · rw [if_neg (by simp [hp])]
      by_cases hp2 : p.1 = k2
      · rw [lookupAssoc_cons_self _ _ _ hp2, lookupAssoc_cons_self _ _ _ hp2]
      · rw [lookupAssoc_cons_other _ _ _ hp2, lookupAssoc_cons_other _ _ _ hp2]
        exact ih

lemma updateAssoc_self (l : List (List Nat × List Nat)) (k v : List Nat) :
    lookupAssoc (updateAssoc l k v) k = some v := by
  unfold updateAssoc
  by_cases hany : l.any (fun p => p.1 == k) = true
  · rw [if_pos hany]
    exact lookupAssoc_map_update_self l k v hany
  · rw [if_neg hany]
    have h1 : lookupAssoc l k = none := by
      rw [lookupAssoc_eq_none_iff]
      intro p hp hpk
      exact hany (List.any_eq_true.mpr ⟨p, hp, by simp [hpk]⟩)
    rw [lookupAssoc_append_none _ h1]
    exact lookupAssoc_cons_self _ _ _ rfl

lemma updateAssoc_other (l : List (List Nat × List Nat)) (k v k2 : List Nat)
    (h : k2 ≠ k) : lookupAssoc (updateAssoc l k v) k2 = lookupAssoc l k2 := by
  unfold updateAssoc
  by_cases hany : l.any (fun p => p.1 == k) = true
  · rw [if_pos hany]
    exact lookupAssoc_map_update_other l k v k2 h
  · rw [if_neg hany]
    cases hlk : lookupAssoc l k2 with
    | some w =>
      induction l with
      | nil => exact absurd hlk (by simp [lookupAssoc])
      | cons p t ih =>
        by_cases hp : p.1 = k2
        · rw [lookupAssoc_cons_self _ _ _ hp] at hlk
          rw [List.cons_append, lookupAssoc_cons_self _ _ _ hp]
          exact hlk
        · rw [lookupAssoc_cons_other _ _ _ hp] at hlk
          rw [List.cons_append, lookupAssoc_cons_other _ _ _ hp]
          exact ih (by
            cases hany2 : t.any (fun p => p.1 == k) with
            | false => simp
            | true => exact absurd (List.any_eq_true.mpr
                (by rcases List.any_eq_true.mp hany2 with ⟨q, hq, hqk⟩
                    exact ⟨q, List.mem_cons_of_mem p hq, hqk⟩)) hany) hlk
    | none =>
      rw [lookupAssoc_append_none _ hlk]
      rw [lookupAssoc_cons_other _ _ _ (Ne.symm h)]
      rfl

lemma keys_map_update (l : List (List Nat × List Nat)) (k v : List Nat) :
    (l.map (fun p => if p.1 == k then (k, v) else p)).map (fun p => p.1) =
      l.map (fun p => p.1) := by
  induction l with
  | nil => rfl
  | cons p t ih =>
    rw [List.map_cons, List.map_cons, List.map_cons, ih]
    by_cases hp : p.1 = k
    · rw [if_pos (by simp [hp]), hp]
    · rw [if_neg (by simp [hp])]

lemma updateAssoc_keys_nodup {l : List (List Nat × List Nat)} {k v : List Nat}
    (h : (l.map (fun p => p.1)).Nodup) :
    ((updateAssoc l k v).map (fun p => p.1)).Nodup := by
  unfold updateAssoc
  by_cases hany : l.any (fun p => p.1 == k) = true
  · rw [if_pos hany, keys_map_update]
    exact h
  · rw [if_neg hany, List.map_append]
    apply List.Nodup.append h (by simp)
    intro x hx hx2
    have hxk : x = k := by simpa using hx2
    rcases List.mem_map.mp hx with ⟨p, hp, hpx⟩
    exact hany (List.any_eq_true.mpr ⟨p, hp, by simp [hpx, hxk]⟩)

lemma lookupAssoc_foldl_update (g : List Nat → List Nat) (cells : List Cell)
    (nh : List (List Nat × List Nat)) (k : List Nat) :
    lookupAssoc (cells.foldl (fun acc c => updateAssoc acc c.source (g c.source)) nh) k =
      if k ∈ cells.map (fun c => c.source) then some (g k) else lookupAssoc nh k := by
  induction cells generalizing nh with
  | nil => simp
  | cons c t ih =>
    rw [List.foldl_cons, ih]
    by_cases hk : k ∈ t.map (fun c => c.source)
    · rw [if_pos hk, if_pos (by simp [hk])]
    · rw [if_neg hk]
      by_cases hkc : k = c.source
      · subst hkc
        rw [updateAssoc_self, if_pos (by simp)]
      · rw [updateAssoc_other _ _ _ _ hkc, if_neg (by simp [hk, hkc])]

lemma foldl_update_keys_nodup (g : List Nat → List Nat) (cells : List Cell)
    (nh : List (List Nat × List Nat)) (h : (nh.map (fun p => p.1)).Nodup) :
    ((cells.foldl (fun acc c => updateAssoc acc c.source (g c.source)) nh).map
      (fun p => p.1)).Nodup := by
  induction cells generalizing nh with
  | nil => exact h
  | cons c t ih => exact ih _ (updateAssoc_keys_nodup h)

lemma foldl_congr_mem {α β : Type} (f g : β → α → β) (l : List α) (b : β)
    (h : ∀ x ∈ l, ∀ acc, f acc x = g acc x) : l.foldl f b = l.foldl g b := by
  induction l generalizing b with
  | nil => rfl
  | cons a t ih =>
    rw [List.foldl_cons, List.foldl_cons, h a (List.mem_cons_self a t) b]
    exact ih _ (fun x hx acc => h x (List.mem_cons_of_mem a hx) acc)

lemma load_hashes_ydump (m : List (List Nat × List Nat)) :
    load_hashes (ydump m) = .ok m := by
  have hall : (m.map (fun q => (YScalar.ystr q.1, YScalar.ystr q.2))).all
      (fun q => q.1.isStr && q.2.isStr) = true := by
    refine List.all_eq_true.mpr ?_
    intro q hq
    rcases List.mem_map.mp hq with ⟨r, _, rfl⟩
    rfl
  have hmap : (m.map (fun q => (YScalar.ystr q.1, YScalar.ystr q.2))).map
      (fun q => (q.1.strVal, q.2.strVal)) = m := by
    rw [List.map_map]
    have hfun : ((fun q : YScalar × YScalar => (q.1.strVal, q.2.strVal)) ∘
        (fun q : List Nat × List Nat => (YScalar.ystr q.1, YScalar.ystr q.2))) =
        (fun q : List Nat × List Nat => (q.1, q.2)) := rfl
    rw [hfun]
    simp
  simp only [load_hashes, ydec_ydump, hall]
  simp [hmap]

lemma precomputeGo_spec (sha : List Nat → List Nat) (env : PCEnv)
    (prev : List (List Nat × List Nat)) (cells : List Cell) :
    ∀ (fs : Fs) (nh : List (List Nat × List Nat)) (outs : List (List Nat)) (count : Nat)
      (outs1 : List (List Nat)) (fs1 : Fs) (nh1 : List (List Nat × List Nat)) (cnt1 : Nat),
    precomputeGo sha env prev fs nh outs count cells = .ok (outs1, fs1, nh1, cnt1) →
    (∀ c ∈ cells, ∀ d ∈ cells, c.source ≠ outName d.source) →
    outs1 = outs ++ cells.map (fun c => outName c.source) ∧
    (∀ p, (∀ c ∈ cells, p ≠ outName c.source) → fs1 p = fs p) ∧
    (∀ c ∈ cells, (fs1 (outName c.source)).isSome = true) ∧
    nh1 = cells.foldl (fun acc c =>
      updateAssoc acc c.source (toHexL (sha ((fs c.source).getD [])))) nh ∧
    (∀ c ∈ cells, ∃ cmd, env.langCmd (toLowerS c.language) = some cmd ∧
      env.which (cmd.headD []) = true ∧ (fs c.source).isSome = true) := by
  induction cells with
  | nil =>
    intro fs nh outs count outs1 fs1 nh1 cnt1 h _
    simp only [precomputeGo] at h
    cases h
    exact ⟨by simp, fun p _ => rfl, by simp, by simp, by simp⟩
  | cons c t ih =>
    intro fs nh outs count outs1 fs1 nh1 cnt1 h hso
    have hso2 : ∀ c2 ∈ t, ∀ d2 ∈ t, c2.source ≠ outName d2.source :=
      fun c2 hc2 d2 hd2 =>
        hso c2 (List.mem_cons_of_mem c hc2) d2 (List.mem_cons_of_mem c hd2)
    cases hcmd : env.langCmd (toLowerS c.language) with
    | none => simp [precomputeGo, hcmd] at h
    | some cmd =>
    cases hwhich : env.which (cmd.headD []) with
    | false =>
      simp only [precomputeGo, hcmd] at h
      rw [if_pos (by rw [hwhich]; decide)] at h
      cases h
    | true =>
    cases hsrc : fs c.source with
    | none =>
      simp only [precomputeGo, hcmd, hsrc] at h
      rw [if_neg (fun hc => hc hwhich)] at h
      cases h
    | some srcBytes =>
    simp only [precomputeGo, hcmd, hsrc] at h
    rw [if_neg (fun hc => hc hwhich)] at h
    cases hskip : (lookupAssoc prev c.source == some (toHexL (sha srcBytes))) &&
        (fs (outName c.source)).isSome with
    | true =>
      rw [if_pos hskip] at h
      obtain ⟨ha, hb, hc, hd, he⟩ := ih fs _ _ _ _ _ _ _ h hso2
      refine ⟨by rw [ha]; simp, ?_, ?_, ?_, ?_⟩
      · intro p hp
        exact hb p (fun c2 hc2 => hp c2 (List.mem_cons_of_mem c hc2))
      · intro c2 hc2
        rcases List.mem_cons.mp hc2 with he2 | ht2
        · subst he2
          by_cases hsh : ∃ d ∈ t, outName c2.source = outName d.source

          · rcases hsh with ⟨d, hd2, hde⟩
            rw [hde]
            exact hc d hd2
          · push_neg at hsh
            rw [hb _ hsh]
            have hskip2 := hskip
            rw [Bool.and_eq_true] at hskip2
            exact hskip2.2
        · exact hc c2 ht2
      · rw [List.foldl_cons, hsrc]
        exact hd
      · intro c2 hc2
        rcases List.mem_cons.mp hc2 with he2 | ht2
        · subst he2
          exact ⟨cmd, hcmd, hwhich, by rw [hsrc]; rfl⟩
        · exact he c2 ht2
    | false =>
      rw [if_neg (by simp [hskip])] at h
      obtain ⟨ha, hb, hc, hd, he⟩ :=
        ih (fset fs (outName c.source) (env.runCell cmd c.source)) _ _ _ _ _ _ _ h hso2
      have hfne : ∀ q, q ≠ outName c.source →
          fset fs (outName c.source) (env.runCell cmd c.source) q = fs q := by
        intro q hq
        simp [fset, hq]
      refine ⟨by rw [ha]; simp, ?_, ?_, ?_, ?_⟩
      · intro p hp
        rw [hb p (fun c2 hc2 => hp c2 (List.mem_cons_of_mem c hc2))]
        exact hfne p (hp c (List.mem_cons_self c t))
      · intro c2 hc2
        rcases List.mem_cons.mp hc2 with he2 | ht2
        · subst he2
          by_cases hsh : ∃ d ∈ t, outName c2.source = outName d.source

          · rcases hsh with ⟨d, hd2, hde⟩
            rw [hde]
            exact hc d hd2
          · push_neg at hsh
            rw [hb (outName c2.source) hsh]
            simp [fset]
        · exact hc c2 ht2
      · rw [List.foldl_cons, hsrc, hd]
        exact foldl_congr_mem _ _ t _ (fun c2 hc2 acc => by
          rw [hfne c2.source
            (hso c2 (List.mem_cons_of_mem c hc2) c (List.mem_cons_self c t))])
      · intro c2 hc2
        rcases List.mem_cons.mp hc2 with he2 | ht2
        · subst he2
          exact ⟨cmd, hcmd, hwhich, by rw [hsrc]; rfl⟩
        · obtain ⟨cmd2, h1, h2, h3⟩ := he c2 ht2
          refine ⟨cmd2, h1, h2, ?_⟩
          rwa [hfne c2.source
            (hso c2 (List.mem_cons_of_mem c ht2) c (List.mem_cons_self c t))] at h3

lemma precomputeGo_skip (sha : List Nat → List Nat) (env : PCEnv)
    (prev : List (List Nat × List Nat)) (cells : List Cell) :
    ∀ (fs : Fs) (nh : List (List Nat × List Nat)) (outs : List (List Nat)) (count : Nat),
    (∀ c ∈ cells, ∃ cmd, env.langCmd (toLowerS c.language) = some cmd ∧
      env.which (cmd.headD []) = true ∧
      ∃ b, fs c.source = some b ∧
        lookupAssoc prev c.source = some (toHexL (sha b)) ∧
        (fs (outName c.source)).isSome = true) →
    precomputeGo sha env prev fs nh outs count cells =
      .ok (outs ++ cells.map (fun c => outName c.source), fs,
        cells.foldl (fun acc c =>
          updateAssoc acc c.source (toHexL (sha ((fs c.source).getD [])))) nh, count) := by
  induction cells with
  | nil =>
    intro fs nh outs count _
    simp [precomputeGo]
  | cons c t ih =>
    intro fs nh outs count hall
    obtain ⟨cmd, hcmd, hwhich, b, hb, hlk, hout⟩ := hall c (List.mem_cons_self c t)
    have hcond : ((lookupAssoc prev c.source == some (toHexL (sha b))) &&
        (fs (outName c.source)).isSome) = true := by
      rw [hlk, hout]
      simp
    simp only [precomputeGo, hcmd, hb]
    rw [if_neg (fun hc => hc hwhich), if_pos hcond]
    rw [ih fs (updateAssoc nh c.source (toHexL (sha b))) (outs ++ [outName c.source]) count
      (fun c2 hc2 => hall c2 (List.mem_cons_of_mem c hc2))]
    rw [List.foldl_cons, hb]
    simp

lemma outName_ne_cache (s : List Nat) : outName s ≠ cachePathName := by
  intro h
  have h1 : (outName s).reverse.head? = cachePathName.reverse.head? := by rw [h]
  have h2 : (outName s).reverse.head? = some 116 := by
    rw [outName, List.reverse_append]
    rfl
  have h3 : cachePathName.reverse.head? = some 108 := by rfl
  rw [h2, h3] at h1
  exact absurd h1 (by decide)

/-- C9: precompute idempotence.  If a first `precompute_cells` run over
`cells` succeeds on filesystem `fs`, producing outputs `outs`,
filesystem `fs1` and some number of command executions, then a second
run on `fs1` (sources unchanged, each `<source>.out` present, cache
written) succeeds with ZERO command executions, returns the same output
paths, and leaves the filesystem untouched.  The side conditions say no
cell source is itself named like an output file or like the cache file
(`precompute.py` would otherwise overwrite its own inputs). -/
theorem claimC9_idempotent (sha : List Nat → List Nat) (env : PCEnv)
    (cells : List Cell) (fs : Fs) (outs : List (List Nat)) (fs1 : Fs) (n1 : Nat)
    (hso : ∀ c ∈ cells, ∀ d ∈ cells, c.source ≠ outName d.source)
    (hsc : ∀ c ∈ cells, c.source ≠ cachePathName)
    (h1 : precompute_cells sha env cells fs = .ok (outs, fs1, n1)) :
    precompute_cells sha env cells fs1 = .ok (outs, fs1, 0) := by
  simp only [precompute_cells] at h1
  cases hcl : (match fs cachePathName with
               | some cb => load_hashes cb
               | none => Except.ok ([] : List (List Nat × List Nat))) with
  | error e =>
    rw [hcl] at h1
    cases h1
  | ok prev =>
  rw [hcl] at h1
  cases hgo : precomputeGo sha env prev fs [] [] 0 cells with
  | error e =>
    simp only [hgo] at h1
    cases h1
  | ok r =>
  obtain ⟨outs0, fsA, nh, cnt⟩ := r
  simp only [hgo] at h1
  cases h1
  obtain ⟨ha, hb, hc, hd, he⟩ :=
    precomputeGo_spec sha env prev cells fs [] [] 0 _ _ _ _ hgo hso
  have hfs1src : ∀ c ∈ cells,
      (fset fsA cachePathName (ydump (sortByKey nh))) c.source = fs c.source := by
    intro c hcm
    have h2 : fsA c.source = fs c.source := hb c.source (fun d hd2 => hso c hcm d hd2)
    simp [fset, hsc c hcm, h2]
  have hfs1out : ∀ c ∈ cells,
      ((fset fsA cachePathName (ydump (sortByKey nh))) (outName c.source)).isSome = true := by
    intro c hcm
    simp [fset, outName_ne_cache c.source, hc c hcm]
  have hnodup : (nh.map (fun p => p.1)).Nodup := by
    rw [hd]
    exact foldl_update_keys_nodup (fun s => toHexL (sha ((fs s).getD []))) cells [] (by simp)
  have hlknh : ∀ c ∈ cells, lookupAssoc nh c.source =
      some (toHexL (sha ((fs c.source).getD []))) := by
    intro c hcm
    rw [hd]
    rw [lookupAssoc_foldl_update (fun s => toHexL (sha ((fs s).getD []))) cells [] c.source]
    rw [if_pos (List.mem_map.mpr ⟨c, hcm, rfl⟩)]
  have hndS : ((sortByKey nh).map (fun p => p.1)).Nodup :=
    (((sortByKey_perm nh).map (fun p => p.1)).nodup_iff).mpr hnodup
  have hlksorted : ∀ k, lookupAssoc (sortByKey nh) k = lookupAssoc nh k :=
    fun k => lookupAssoc_perm (sortByKey_perm nh) hndS k
  have hskipall : ∀ c ∈ cells, ∃ cmd, env.langCmd (toLowerS c.language) = some cmd ∧
      env.which (cmd.headD []) = true ∧
      ∃ b, (fset fsA cachePathName (ydump (sortByKey nh))) c.source = some b ∧
        lookupAssoc (sortByKey nh) c.source = some (toHexL (sha b)) ∧
        ((fset fsA cachePathName (ydump (sortByKey nh))) (outName c.source)).isSome = true := by
    intro c hcm
    obtain ⟨cmd, hcmd, hwh, hsome⟩ := he c hcm
    obtain ⟨b, hb2⟩ := Option.isSome_iff_exists.mp hsome
    refine ⟨cmd, hcmd, hwh, b, ?_, ?_, hfs1out c hcm⟩
    · rw [hfs1src c hcm]
      exact hb2
    · rw [hlksorted]
      have h3 := hlknh c hcm
      rw [hb2] at h3
      exact h3
  have hGo2 := precomputeGo_skip sha env (sortByKey nh) cells
    (fset fsA cachePathName (ydump (sortByKey nh))) [] [] 0 hskipall
  have hnh2 : cells.foldl (fun acc c => updateAssoc acc c.source
      (toHexL (sha (((fset fsA cachePathName (ydump (sortByKey nh))) c.source).getD []))))
      [] = nh := by
    conv_rhs => rw [hd]
    exact foldl_congr_mem _ _ cells [] (fun c hcm acc => by rw [hfs1src c hcm])
  have hfsfix : fset (fset fsA cachePathName (ydump (sortByKey nh))) cachePathName
      (ydump (sortByKey nh)) = fset fsA cachePathName (ydump (sortByKey nh)) := by
    funext p
    by_cases hp : p = cachePathName
    · subst hp
      simp [fset]
    · simp [fset, hp]
  have hcache : (fset fsA cachePathName (ydump (sortByKey nh))) cachePathName =
      some (ydump (sortByKey nh)) := by
    simp [fset]
  simp only [precompute_cells, hcache, load_hashes_ydump, hGo2]
  rw [hnh2, hfsfix, ha]

/-- Closed instance of C9: a first run over one python cell executes the
cell once; on the resulting filesystem the second run executes nothing
and reproduces the same outputs and filesystem. -/
theorem claimC9_idempotent_witness :
    precompute_cells sha0 wC9env wC9cells wC9fs1 =
      .ok ([outName (strN "a.py")], wC9fs1, 0) :=
  claimC9_idempotent sha0 wC9env wC9cells wC9fs [outName (strN "a.py")] wC9fs1 1
    (by decide) (by decide) (by rfl)

end Egg
